import Mathlib

/-!
# exciportur: the collection cycle and the commit fetcher of `main.go`

A shallow embedding of `updateCommitMetrics` and `fetchRecentCommitInfo`.

* Go strings are byte sequences; `len` and slicing count bytes, characters are the runes
  that `unicode/utf8` decodes.
* The labelled gauge `commitAge` is a finite map from the label pair
  `(repository, commit_sha)` to a value, kept as an association list. `With` fails at run
  time on a label value that is not valid UTF-8.
* The network, the JSON decoder, `time.Parse` and the clock are the environment `Env`.
  The loop is stated for any value function `secondsSince`; `goEnv` fixes it to
  `time.Since(t).Seconds()` on nanosecond instants, up to the final floating-point sum.
* A Go runtime failure (failed type assertion, slice bound out of range, rejected label)
  is an explicit result: `FetchResult.crash`, `Outcome.aborted`.
-/

set_option autoImplicit false

namespace Exciportur

/-! ## Strings -/

/-- A Go string: a sequence of bytes. `len` is `List.length` and the slice `s[:8]` is the
first 8 bytes; the characters of a string are the runes `DecodeRuneInString` yields. -/
abbrev GoString := List Nat

/-- The bytes of an ASCII literal. -/
def ascii (s : String) : GoString := s.toList.map Char.toNat

/-- The byte of the separator `"/"`. -/
def slash : Nat := 47

/-- The function `strings.Index(s, sep)` for a one-byte separator: the offset of the first
occurrence, `none` for the result `-1`. -/
def indexByte (sep : Nat) : GoString → Option Nat
  | [] => none
  | c :: cs => if c = sep then some 0 else (indexByte sep cs).map (· + 1)

/-- The function `strings.SplitN(s, sep, n)` for a one-byte separator and `n ≥ 0`: at most `n`
pieces, the last one being the unsplit remainder (the loop of `genSplit`). -/
def SplitN (s : GoString) (sep : Nat) : Nat → List GoString
  | 0 => []
  | 1 => [s]
  | n + 2 =>
    match indexByte sep s with
    | none => [s]
    | some m => s.take m :: SplitN (s.drop (m + 1)) sep (n + 1)

/-- The slice expression `s[:n]`: `none` is the runtime failure "slice bounds out of range"
raised when `n > len(s)`. -/
def sliceTo (s : GoString) (n : Nat) : Option GoString :=
  if n ≤ s.length then some (s.take n) else none

/-! ## UTF-8 (`unicode/utf8`) -/

/-- Whether `lo ≤ b ≤ hi`. -/
def inRange (lo hi b : Nat) : Bool := decide (lo ≤ b) && decide (b ≤ hi)

/-- The lowest second byte `unicode/utf8` accepts after the lead byte `b0` (its
`acceptRanges`): `0xA0` after `0xE0`, `0x90` after `0xF0`, else `0x80`. -/
def acceptLo (b0 : Nat) : Nat := if b0 = 0xE0 then 0xA0 else if b0 = 0xF0 then 0x90 else 0x80

/-- The highest second byte accepted after the lead byte `b0`: `0x9F` after `0xED`,
`0x8F` after `0xF4`, else `0xBF`. -/
def acceptHi (b0 : Nat) : Nat := if b0 = 0xED then 0x9F else if b0 = 0xF4 then 0x8F else 0xBF

/-- The function `utf8.DecodeRuneInString(s)`, without the rune: whether `s` starts with a
valid encoding, and the size consumed. As in the library an invalid or truncated encoding
has size 1 and the empty string size 0. -/
def DecodeRuneInString : GoString → Bool × Nat
  | [] => (false, 0)
  | b0 :: rest =>
    if b0 < 0x80 then (true, 1)
    else if inRange 0xC2 0xDF b0 then
      match rest with
      | b1 :: _ => if inRange 0x80 0xBF b1 then (true, 2) else (false, 1)
      | _ => (false, 1)
    else if inRange 0xE0 0xEF b0 then
      match rest with
      | b1 :: b2 :: _ =>
        if inRange (acceptLo b0) (acceptHi b0) b1 && inRange 0x80 0xBF b2 then (true, 3)
        else (false, 1)
      | _ => (false, 1)
    else if inRange 0xF0 0xF4 b0 then
      match rest with
      | b1 :: b2 :: b3 :: _ =>
        if inRange (acceptLo b0) (acceptHi b0) b1 && inRange 0x80 0xBF b2 &&
            inRange 0x80 0xBF b3 then (true, 4)
        else (false, 1)
      | _ => (false, 1)
    else (false, 1)

/-- The loop of `utf8.ValidString` with `fuel` iterations left: every rune met is a valid
encoding. -/
def validFrom : Nat → GoString → Bool
  | _, [] => true
  | 0, _ :: _ => false
  | fuel + 1, b :: rest =>
    match DecodeRuneInString (b :: rest) with
    | (true, size) => validFrom fuel ((b :: rest).drop size)
    | (false, _) => false

/-- The function `utf8.ValidString(s)`; each iteration consumes at least one byte, so
`len(s)` iterations are enough. -/
def ValidString (s : GoString) : Bool := validFrom s.length s

/-- The first `n` characters (runes) of `s`, as a `for range` loop over the string meets
them: each is the bytes one `DecodeRuneInString` consumes. -/
def takeRunes : Nat → GoString → GoString
  | 0, _ => []
  | _ + 1, [] => []
  | n + 1, b :: rest =>
    (b :: rest).take (DecodeRuneInString (b :: rest)).2 ++
      takeRunes n ((b :: rest).drop (DecodeRuneInString (b :: rest)).2)

/-- The function `utf8.RuneCountInString(s)` with `fuel` iterations left. -/
def runeCountFrom : Nat → GoString → Nat
  | _, [] => 0
  | 0, _ :: _ => 0
  | fuel + 1, b :: rest =>
    1 + runeCountFrom fuel ((b :: rest).drop (DecodeRuneInString (b :: rest)).2)

/-- The function `utf8.RuneCountInString(s)`: the number of characters of `s`. -/
def RuneCountInString (s : GoString) : Nat := runeCountFrom s.length s

/-! ## Time (`time`) -/

/-- The constant `minDuration`, `-1 << 63` nanoseconds. -/
def minDuration : Int := -9223372036854775808

/-- The constant `maxDuration`, `1<<63 - 1` nanoseconds. -/
def maxDuration : Int := 9223372036854775807

/-- The method `t.Sub(u)` on instants given in nanoseconds and carrying no monotonic clock
reading (a parsed time carries none): the `Duration` `t - u` in nanoseconds, or the
maximum (minimum) duration when `t - u` does not fit an `int64`. -/
def timeSub (t u : Int) : Int :=
  if maxDuration < t - u then maxDuration
  else if t - u < minDuration then minDuration
  else t - u

/-- The two operands of the `float64` sum that `Duration.Seconds()` returns,
`float64(sec) + float64(nsec)/1e9`: whole seconds and the nanoseconds left. -/
structure FloatSeconds where
  sec : Int
  nsec : Int
  deriving DecidableEq, Repr

/-- The method `d.Seconds()`, up to the final floating-point sum: `sec := d / Second` and
`nsec := d % Second`, with the truncated division of Go integers. -/
def durationSeconds (d : Int) : FloatSeconds :=
  { sec := Int.tdiv d 1000000000, nsec := Int.tmod d 1000000000 }

/-! ## Decoded JSON (`interface{}` values produced by `encoding/json`) -/

/-- A value held in an `interface{}` after decoding: `null` is the nil interface. -/
inductive Json where
  | null
  | bool (b : Bool)
  | number (text : GoString)
  | string (s : GoString)
  | array (xs : List Json)
  | object (fields : List (GoString × Json))

/-- A `map[string]interface{}`; the nil map is the empty list. -/
abbrev JMap := List (GoString × Json)

/-- The index expression `m[key]`: the nil interface when the key is absent. -/
def JMap.index (m : JMap) (key : GoString) : Json :=
  match m.lookup key with
  | some v => v
  | none => Json.null

/-- The unchecked type assertion `x.(map[string]interface{})`: `none` is the runtime
failure of a failed assertion. -/
def Json.assertMap : Json → Option JMap
  | Json.object fields => some fields
  | _ => none

/-- The unchecked type assertion `x.(string)`: `none` is the runtime failure. -/
def Json.assertString : Json → Option GoString
  | Json.string s => some s
  | _ => none

/-! ## The fetcher -/

/-- What `json.NewDecoder(resp.Body).Decode(&commits)` makes of a response body, with
`commits` of type `[]map[string]interface{}`. -/
inductive Body where
  | undecodable
  | decoded (commits : List JMap)

/-- What the HTTP stage of one call of `fetchRecentCommitInfo` yields. -/
inductive HttpOutcome where
  /-- The call `http.NewRequest` returned an error. -/
  | requestError
  /-- The call `client.Do` returned an error. -/
  | transportError
  /-- A response arrived. -/
  | response (status : Nat) (body : Body)

/-- The five error values `fetchRecentCommitInfo` returns, by their message. -/
inductive FetchError where
  /-- Message "failed to create HTTP request". -/
  | createRequest
  /-- Message "failed to fetch recent commit info". -/
  | transport
  /-- Message "failed to decode response body". -/
  | decode
  /-- Message "failed to parse commit date". -/
  | parseDate
  /-- Message "no commits found". -/
  | noCommits
  deriving DecidableEq, Repr

/-- The result of one call of `fetchRecentCommitInfo`: the triple
`(time, sha, nil)`, an error value, or a runtime failure inside the call. -/
inductive FetchResult (Time : Type) where
  | ok (commitDate : Time) (sha : GoString)
  | error (e : FetchError)
  | crash
  deriving DecidableEq, Repr

/-- The constant `http.StatusOK`. -/
def StatusOK : Nat := 200

/-- The environment of one collection cycle. Calls and clock readings are indexed by the
position of the target in `repositories`. -/
structure Env (Time Val : Type) where
  /-- The HTTP stage of the call made for position `i` with `(owner, name)`. -/
  http : Nat → GoString → GoString → HttpOutcome
  /-- The function `time.Parse(time.RFC3339, ·)`; `none` is a parse error. -/
  parseTime : GoString → Option Time
  /-- The clock reading taken by `time.Since` at the gauge write for position `i`. -/
  now : Nat → Time
  /-- The clock reading taken by `time.Since` at the debug log for position `i`. -/
  nowLog : Nat → Time
  /-- The value `time.Since(t).Seconds()` at clock reading `now`: `secondsSince now t`. -/
  secondsSince : Time → Time → Val

/-- Lines 121-127: the first element of the decoded list is taken apart. -/
def parseFirstCommit {Time : Type} (parseTime : GoString → Option Time) (commit : JMap) :
    FetchResult Time :=
  match (commit.index (ascii "commit")).assertMap with
  | none => FetchResult.crash
  | some c =>
    match (c.index (ascii "committer")).assertMap with
    | none => FetchResult.crash
    | some committer =>
      match (committer.index (ascii "date")).assertString with
      | none => FetchResult.crash
      | some date =>
        match parseTime date with
        | none => FetchResult.error FetchError.parseDate
        | some commitDate =>
          match (commit.index (ascii "sha")).assertString with
          | none => FetchResult.crash
          | some commitSHAValue => FetchResult.ok commitDate commitSHAValue

/-- Lines 100-131 on the outcome of the HTTP stage. -/
def fetchResponse {Time : Type} (parseTime : GoString → Option Time) :
    HttpOutcome → FetchResult Time
  | HttpOutcome.requestError => FetchResult.error FetchError.createRequest
  | HttpOutcome.transportError => FetchResult.error FetchError.transport
  | HttpOutcome.response status body =>
    if status = StatusOK then
      match body with
      | Body.undecodable => FetchResult.error FetchError.decode
      | Body.decoded [] => FetchResult.error FetchError.noCommits
      | Body.decoded (commit :: _) => parseFirstCommit parseTime commit
    else FetchResult.error FetchError.noCommits

/-- The function `fetchRecentCommitInfo(repoOwner, repoName)`, called for position `i`. -/
def fetchRecentCommitInfo {Time Val : Type} (env : Env Time Val) (i : Nat)
    (repoOwner repoName : GoString) : FetchResult Time :=
  fetchResponse env.parseTime (env.http i repoOwner repoName)

/-! ## The metric store -/

/-- The label values `(repository, commit_sha)` of one sample of `commitAge`. -/
abbrev Labels := GoString × GoString

/-- The gauge vector `commitAge`: the samples held, one per label pair. -/
abbrev GaugeVec (Val : Type) := List (Labels × Val)

/-- The call `commitAge.With(labels)`: `none` is the runtime failure `With` raises when
`GetMetricWith` returns an error, which it does when a label value is not valid UTF-8. -/
def GaugeVec.withLabels (labels : Labels) : Option Labels :=
  if ValidString labels.1 && ValidString labels.2 then some labels else none

/-- The write `Set(v)` on the gauge that `commitAge.With(labels)` returned: the sample with
these labels is overwritten, or created when there is none. -/
def GaugeVec.setValue {Val : Type} : GaugeVec Val → Labels → Val → GaugeVec Val
  | [], k, v => [(k, v)]
  | (k', v') :: rest, k, v =>
    if k' = k then (k, v) :: rest else (k', v') :: GaugeVec.setValue rest k v

/-- The label pairs of the samples held. -/
def GaugeVec.labels {Val : Type} (g : GaugeVec Val) : List Labels := g.map Prod.fst

/-- The `repository` label values of the samples held. -/
def GaugeVec.repositories {Val : Type} (g : GaugeVec Val) : List GoString :=
  g.map fun e => e.1.1

/-- The value of the sample with the label pair `k`, if one is held. -/
def GaugeVec.value {Val : Type} : GaugeVec Val → Labels → Option Val
  | [], _ => none
  | (k', v') :: rest, k => if k' = k then some v' else GaugeVec.value rest k

/-! ## The collection loop -/

/-- The observable effects of the loop body, in program order. -/
inductive Event (Val : Type) where
  /-- Line 74: `logger.Printf("Invalid repository: %s", repo)`. -/
  | invalidRepository (repo : GoString)
  /-- Line 79: the call `fetchRecentCommitInfo(repoOwner, repoName)`. -/
  | fetch (repoOwner repoName : GoString)
  /-- Line 81: `logger.Printf("Failed to fetch ...", repo, err)`. -/
  | fetchFailed (repo : GoString) (err : FetchError)
  /-- Line 85: `commitAge.With(labels).Set(v)`. -/
  | set (labels : Labels) (v : Val)
  /-- Lines 87-91: the call `logger.WithFields(...).Debug("Metrics")` with the fields
  repository, age and sha (the logger emits it at debug level only). -/
  | debug (repo : GoString) (age : Val) (sha : GoString)
  deriving DecidableEq, Repr

/-- The state the loop acts on: the metric store and the effects so far. -/
structure State (Val : Type) where
  store : GaugeVec Val
  trace : List (Event Val)
  deriving DecidableEq, Repr

/-- The state with one more effect recorded. -/
def State.log {Val : Type} (s : State Val) (e : Event Val) : State Val :=
  { s with trace := s.trace ++ [e] }

/-- How a piece of the loop ends: normally, or aborted by a runtime failure; both carry
the state reached. -/
inductive Outcome (σ : Type) where
  | done (s : σ)
  | aborted (s : σ)
  deriving DecidableEq, Repr

/-- The state reached. -/
def Outcome.state {σ : Type} : Outcome σ → σ
  | Outcome.done s => s
  | Outcome.aborted s => s

/-- Whether the piece ended without a runtime failure. -/
def Outcome.completed {σ : Type} : Outcome σ → Bool
  | Outcome.done _ => true
  | Outcome.aborted _ => false

/-- Whether line 85 gets as far as the write for the identifier `repo` and the hash `sha`:
the slice `sha[:8]` is in range and `With` accepts both label values. -/
def writable (repo sha : GoString) : Bool :=
  decide (8 ≤ sha.length) && ValidString repo && ValidString (sha.take 8)

/-- Lines 72-91: the body of `for _, repo := range repositories`, for the target at
position `i`. At line 85 the label map is built first (the slice `[:8]`), then `With` is
called, then the clock is read and the value set. -/
def processRepo {Time Val : Type} (env : Env Time Val) (i : Nat) (repo : GoString)
    (s : State Val) : Outcome (State Val) :=
  match SplitN repo slash 2 with
  | [repoOwner, repoName] =>
    let s1 := s.log (Event.fetch repoOwner repoName)
    match fetchRecentCommitInfo env i repoOwner repoName with
    | FetchResult.crash => Outcome.aborted s1
    | FetchResult.error err => Outcome.done (s1.log (Event.fetchFailed repo err))
    | FetchResult.ok lastCommitTime commitSHAValue =>
      match sliceTo commitSHAValue 8 with
      | none => Outcome.aborted s1
      | some sha8 =>
        match GaugeVec.withLabels (repo, sha8) with
        | none => Outcome.aborted s1
        | some labels =>
          let v := env.secondsSince (env.now i) lastCommitTime
          Outcome.done
            { store := GaugeVec.setValue s1.store labels v
              trace := s1.trace ++ [Event.set labels v,
                Event.debug repo (env.secondsSince (env.nowLog i) lastCommitTime) sha8] }
  | _ => Outcome.done (s.log (Event.invalidRepository repo))

/-- Lines 71-92 from position `i` on: the targets left are processed in order; a runtime
failure ends the loop. -/
def cycleFrom {Time Val : Type} (env : Env Time Val) :
    Nat → List GoString → State Val → Outcome (State Val)
  | _, [], s => Outcome.done s
  | i, repo :: rest, s =>
    match processRepo env i repo s with
    | Outcome.done s' => cycleFrom env (i + 1) rest s'
    | Outcome.aborted s' => Outcome.aborted s'

/-- One collection cycle: lines 71-92, the loop over `repositories`. -/
def collectionCycle {Time Val : Type} (env : Env Time Val) (repositories : List GoString)
    (s : State Val) : Outcome (State Val) :=
  cycleFrom env 0 repositories s

/-- The function `updateCommitMetrics`, run for as many cycles as there are environments
(one per cycle; the sleep between two cycles changes no state). A runtime failure ends
the run. -/
def updateCommitMetrics {Time Val : Type} (repositories : List GoString) :
    List (Env Time Val) → State Val → Outcome (State Val)
  | [], s => Outcome.done s
  | env :: later, s =>
    match collectionCycle env repositories s with
    | Outcome.done s' => updateCommitMetrics repositories later s'
    | Outcome.aborted s' => Outcome.aborted s'

/-- The state at process start: no sample, no effect. -/
def State.empty {Val : Type} : State Val := { store := [], trace := [] }

/-- The value of the latest write to the label pair `k` recorded in a trace. -/
def lastWrite {Val : Type} (k : Labels) (trace : List (Event Val)) : Option Val :=
  trace.foldl (fun acc e =>
    match e with
    | Event.set k' v => if k' = k then some v else acc
    | _ => acc) none

/-- The state after a successful write for `repo` at position `i`. -/
def writeState {Time Val : Type} (env : Env Time Val) (i : Nat) (repo repoOwner repoName : GoString)
    (lastCommitTime : Time) (sha : GoString) (s : State Val) : State Val :=
  { store := GaugeVec.setValue s.store (repo, sha.take 8)
      (env.secondsSince (env.now i) lastCommitTime)
    trace := s.trace ++ [Event.fetch repoOwner repoName,
      Event.set (repo, sha.take 8) (env.secondsSince (env.now i) lastCommitTime),
      Event.debug repo (env.secondsSince (env.nowLog i) lastCommitTime) (sha.take 8)] }


/-! ## Concrete environments -/

/-- A decoded commit object with the fields the fetcher reads:
`{"sha": sha, "commit": {"committer": {"date": date}}}`. -/
def commitObject (sha date : GoString) : JMap :=
  [(ascii "sha", Json.string sha),
   (ascii "commit", Json.object
      [(ascii "committer", Json.object [(ascii "date", Json.string date)])])]

/-- A 200 response whose commit list starts with `commitObject sha date`. -/
def okResponse (sha date : GoString) : HttpOutcome :=
  HttpOutcome.response StatusOK (Body.decoded [commitObject sha date])

/-- An environment over integer seconds: the date `2024-01-01T00:00:00Z` parses to
second `1704067200`, every clock reading is 5 seconds later, and the value is the
difference in seconds. -/
def clockEnv (http : Nat → GoString → GoString → HttpOutcome) : Env Int Int where
  http := http
  parseTime := fun d => if d = ascii "2024-01-01T00:00:00Z" then some 1704067200 else none
  now := fun _ => 1704067205
  nowLog := fun _ => 1704067205
  secondsSince := fun now t => now - t

/-- Owner `a` has a newest commit with hash `abcdef1234567890`; every other request
fails in transport. -/
def demoEnv : Env Int Int :=
  clockEnv fun _ owner _ =>
    if owner = ascii "a" then okResponse (ascii "abcdef1234567890") (ascii "2024-01-01T00:00:00Z")
    else HttpOutcome.transportError

/-- Every request is answered by the same outcome. -/
def constEnv (o : HttpOutcome) : Env Int Int := clockEnv fun _ _ _ => o

/-- Every request is answered `200` with the one-element list `[{}]`. -/
def emptyObjectEnv : Env Int Int :=
  constEnv (HttpOutcome.response StatusOK (Body.decoded [[]]))

/-- An environment with the time library made concrete: instants are nanoseconds since
the epoch and the gauge value is `time.Since(t).Seconds()`, that is
`durationSeconds (timeSub now t)`. -/
def goEnv (http : Nat → GoString → GoString → HttpOutcome)
    (parseTime : GoString → Option Int) (now nowLog : Nat → Int) : Env Int FloatSeconds where
  http := http
  parseTime := parseTime
  now := now
  nowLog := nowLog
  secondsSince := fun now t => durationSeconds (timeSub now t)

/-- The instant `2024-01-01T00:00:00Z` in nanoseconds since the epoch. -/
def t2024 : Int := 1704067200000000000

/-- The instant `0001-01-01T00:00:00Z` in nanoseconds since the epoch. -/
def tYear1 : Int := -62135596800000000000

/-- A concrete-time environment: every request is answered `200` with one commit of hash
`sha` and date `date`; the dates `2024-01-01T00:00:00Z` and `0001-01-01T00:00:00Z` parse;
every clock reading is 5 seconds after `t2024`. -/
def goDemoEnv (sha date : GoString) : Env Int FloatSeconds :=
  goEnv (fun _ _ _ => okResponse sha date)
    (fun d => if d = ascii "2024-01-01T00:00:00Z" then some t2024
      else if d = ascii "0001-01-01T00:00:00Z" then some tYear1 else none)
    (fun _ => t2024 + 5000000000) (fun _ => t2024 + 5000000000)

/-- The bytes of `éééé1234`: 8 characters, 12 bytes. -/
def shaAccented : GoString :=
  [0xC3, 0xA9, 0xC3, 0xA9, 0xC3, 0xA9, 0xC3, 0xA9, 0x31, 0x32, 0x33, 0x34]

/-- The bytes of `1234567é`: the eighth byte is the first half of a two-byte character. -/
def shaCutRune : GoString := [0x31, 0x32, 0x33, 0x34, 0x35, 0x36, 0x37, 0xC3, 0xA9]

/-- Owner `c` is answered `200` with the list `[{}]`; every other owner has a newest
commit with hash `abcdef1234567890`. -/
def crashFirstEnv : Env Int Int :=
  clockEnv fun _ owner _ =>
    if owner = ascii "c" then HttpOutcome.response StatusOK (Body.decoded [[]])
    else okResponse (ascii "abcdef1234567890") (ascii "2024-01-01T00:00:00Z")


/-! ## Lemmas on the metric store -/

theorem GaugeVec.mem_setValue_self {Val : Type} (g : GaugeVec Val) (k : Labels) (v : Val) :
    (k, v) ∈ GaugeVec.setValue g k v := by
  induction g with
  | nil => simp [GaugeVec.setValue]
  | cons e rest ih =>
    obtain ⟨k', v'⟩ := e
    by_cases h : k' = k
    · simp [GaugeVec.setValue, h]
    · simp only [GaugeVec.setValue, h, if_false]
      exact List.mem_cons_of_mem _ ih

theorem GaugeVec.mem_setValue_of_ne {Val : Type} (g : GaugeVec Val) (k : Labels) (v : Val)
    (e : Labels × Val) (he : e ∈ g) (hne : e.1 ≠ k) : e ∈ GaugeVec.setValue g k v := by
  induction g with
  | nil => simp at he
  | cons e' rest ih =>
    obtain ⟨k', v'⟩ := e'
    by_cases h : k' = k
    · simp only [GaugeVec.setValue, h, if_true]
      rcases List.mem_cons.mp he with h1 | h1
      · subst h1; exact absurd h hne
      · exact List.mem_cons_of_mem _ h1
    · simp only [GaugeVec.setValue, h, if_false]
      rcases List.mem_cons.mp he with h1 | h1
      · subst h1; exact List.mem_cons_self _ _
      · exact List.mem_cons_of_mem _ (ih h1)

theorem GaugeVec.mem_setValue_cases {Val : Type} (g : GaugeVec Val) (k : Labels) (v : Val)
    (e : Labels × Val) (he : e ∈ GaugeVec.setValue g k v) : e ∈ g ∨ e = (k, v) := by
  induction g with
  | nil => simp [GaugeVec.setValue] at he; exact Or.inr he
  | cons e' rest ih =>
    obtain ⟨k', v'⟩ := e'
    by_cases h : k' = k
    · simp only [GaugeVec.setValue, h, if_true] at he
      rcases List.mem_cons.mp he with h1 | h1
      · exact Or.inr h1
      · exact Or.inl (List.mem_cons_of_mem _ h1)
    · simp only [GaugeVec.setValue, h, if_false] at he
      rcases List.mem_cons.mp he with h1 | h1
      · exact Or.inl (h1 ▸ List.mem_cons_self _ _)
      · rcases ih h1 with h2 | h2
        · exact Or.inl (List.mem_cons_of_mem _ h2)
        · exact Or.inr h2

theorem GaugeVec.mem_labels_setValue {Val : Type} (g : GaugeVec Val) (k k' : Labels)
    (v : Val) : k' ∈ GaugeVec.labels (GaugeVec.setValue g k v) ↔ k' = k ∨ k' ∈ GaugeVec.labels g := by
  induction g with
  | nil => simp [GaugeVec.setValue, GaugeVec.labels]
  | cons e rest ih =>
    obtain ⟨k1, v1⟩ := e
    by_cases h : k1 = k
    · subst h
      simp [GaugeVec.setValue, GaugeVec.labels]
    · simp only [GaugeVec.setValue, h, if_false]
      simp only [GaugeVec.labels, List.map_cons, List.mem_cons] at ih ⊢
      rw [ih]
      tauto

theorem GaugeVec.nodup_labels_setValue {Val : Type} (g : GaugeVec Val) (k : Labels)
    (v : Val) (hg : (GaugeVec.labels g).Nodup) :
    (GaugeVec.labels (GaugeVec.setValue g k v)).Nodup := by
  induction g with
  | nil => simp [GaugeVec.setValue, GaugeVec.labels]
  | cons e rest ih =>
    obtain ⟨k1, v1⟩ := e
    have hg' : k1 ∉ GaugeVec.labels rest ∧ (GaugeVec.labels rest).Nodup := by
      simpa [GaugeVec.labels] using hg
    by_cases h : k1 = k
    · subst h
      simpa [GaugeVec.setValue, GaugeVec.labels] using hg
    · simp only [GaugeVec.setValue, h, if_false]
      have h2 := ih hg'.2
      have h3 : k1 ∉ GaugeVec.labels (GaugeVec.setValue rest k v) := by
        rw [GaugeVec.mem_labels_setValue]
        rintro (h4 | h4)
        · exact h h4
        · exact hg'.1 h4
      show (k1 :: GaugeVec.labels (GaugeVec.setValue rest k v)).Nodup
      exact List.nodup_cons.mpr ⟨h3, h2⟩

theorem GaugeVec.mem_repositories_setValue {Val : Type} (g : GaugeVec Val) (k : Labels)
    (v : Val) (r : GoString) :
    r ∈ GaugeVec.repositories (GaugeVec.setValue g k v) ↔
      r = k.1 ∨ r ∈ GaugeVec.repositories g := by
  induction g with
  | nil => simp [GaugeVec.setValue, GaugeVec.repositories]
  | cons e rest ih =>
    obtain ⟨k1, v1⟩ := e
    by_cases h : k1 = k
    · subst h
      simp [GaugeVec.setValue, GaugeVec.repositories]
    · simp only [GaugeVec.setValue, h, if_false]
      simp only [GaugeVec.repositories, List.map_cons, List.mem_cons] at ih ⊢
      rw [ih]
      tauto

theorem GaugeVec.value_setValue {Val : Type} (g : GaugeVec Val) (k k' : Labels) (v : Val) :
    GaugeVec.value (GaugeVec.setValue g k v) k' =
      if k = k' then some v else GaugeVec.value g k' := by
  induction g with
  | nil => simp [GaugeVec.setValue, GaugeVec.value]
  | cons e rest ih =>
    obtain ⟨k1, v1⟩ := e
    by_cases h : k1 = k
    · subst h
      by_cases h2 : k1 = k' <;> simp [GaugeVec.setValue, GaugeVec.value, h2]
    · by_cases h2 : k1 = k'
      · subst h2
        simp [GaugeVec.setValue, GaugeVec.value, h, Ne.symm h]
      · simp [GaugeVec.setValue, GaugeVec.value, h, h2, ih]

theorem GaugeVec.value_isSome_iff {Val : Type} (g : GaugeVec Val) (k : Labels) :
    (GaugeVec.value g k).isSome = true ↔ k ∈ GaugeVec.labels g := by
  induction g with
  | nil => simp [GaugeVec.value, GaugeVec.labels]
  | cons e rest ih =>
    obtain ⟨k1, v1⟩ := e
    by_cases h : k1 = k
    · subst h
      simp [GaugeVec.value, GaugeVec.labels]
    · have h' : ¬ k = k1 := fun hk => h hk.symm
      simp only [GaugeVec.value, h, if_false, ih]
      simp [GaugeVec.labels, h']

/-! ## Lemmas on the trace -/

theorem lastWrite_append_one {Val : Type} (k : Labels) (tr : List (Event Val))
    (e : Event Val) :
    lastWrite k (tr ++ [e]) =
      match e with
      | Event.set k' v => if k' = k then some v else lastWrite k tr
      | _ => lastWrite k tr := by
  simp only [lastWrite, List.foldl_append, List.foldl_cons, List.foldl_nil]

theorem lastWrite_isSome_iff {Val : Type} (k : Labels) (tr : List (Event Val)) :
    (lastWrite k tr).isSome = true ↔ ∃ v, Event.set k v ∈ tr := by
  induction tr using List.reverseRecOn with
  | nil => simp [lastWrite]
  | append_singleton tr e ih =>
    rw [lastWrite_append_one]
    cases e with
    | set k' v =>
      by_cases h : k' = k
      · subst h
        simp only [if_true, Option.isSome_some, true_iff]
        exact ⟨v, by simp⟩
      · simp only [h, if_false, ih]
        constructor
        · rintro ⟨v', hv⟩; exact ⟨v', List.mem_append_left _ hv⟩
        · rintro ⟨v', hv⟩
          rcases List.mem_append.mp hv with h1 | h1
          · exact ⟨v', h1⟩
          · simp only [List.mem_singleton, Event.set.injEq] at h1
            exact absurd h1.1.symm h
    | invalidRepository r => simp [ih]
    | fetch o n => simp [ih]
    | fetchFailed r err => simp [ih]
    | debug r a sh => simp [ih]

/-! ## UTF-8 on ASCII strings -/

theorem DecodeRuneInString_ascii (b : Nat) (rest : GoString) (hb : b < 128) :
    DecodeRuneInString (b :: rest) = (true, 1) := by
  simp [DecodeRuneInString, hb]

theorem validFrom_ascii : ∀ (s : GoString) (fuel : Nat), s.length ≤ fuel →
    (∀ b ∈ s, b < 128) → validFrom fuel s = true := by
  intro s
  induction s with
  | nil => intro fuel _ _; cases fuel <;> rfl
  | cons b rest ih =>
    intro fuel hf hall
    cases fuel with
    | zero => simp at hf
    | succ fuel =>
      have hb : b < 128 := hall b (List.mem_cons_self _ _)
      simp only [validFrom, DecodeRuneInString_ascii b rest hb, List.drop_succ_cons,
        List.drop_zero]
      exact ih fuel (by simpa using hf) (fun c hc => hall c (List.mem_cons_of_mem _ hc))

theorem ValidString_ascii (s : GoString) (hall : ∀ b ∈ s, b < 128) :
    ValidString s = true :=
  validFrom_ascii s s.length (Nat.le_refl _) hall

theorem takeRunes_ascii : ∀ (n : Nat) (s : GoString), (∀ b ∈ s.take n, b < 128) →
    takeRunes n s = s.take n := by
  intro n
  induction n with
  | zero => intro s _; cases s <;> rfl
  | succ n ih =>
    intro s hall
    cases s with
    | nil => rfl
    | cons b rest =>
      have hb : b < 128 := hall b (by simp)
      have hrest : ∀ c ∈ rest.take n, c < 128 := fun c hc => hall c (by simp [hc])
      simp only [takeRunes, DecodeRuneInString_ascii b rest hb, List.take_succ_cons,
        List.take_zero, List.drop_succ_cons, List.drop_zero, List.singleton_append]
      rw [ih rest hrest]

theorem writable_iff (repo sha : GoString) :
    writable repo sha = true ↔
      8 ≤ sha.length ∧ ValidString repo = true ∧ ValidString (sha.take 8) = true := by
  simp [writable, and_assoc]

/-! ## Time arithmetic -/

theorem timeSub_of_fits (t u : Int) (hlo : minDuration ≤ t - u) (hhi : t - u ≤ maxDuration) :
    timeSub t u = t - u := by
  unfold timeSub
  rw [if_neg (by omega), if_neg (by omega)]

theorem durationSeconds_sum (d : Int) :
    (durationSeconds d).sec * 1000000000 + (durationSeconds d).nsec = d := by
  simp only [durationSeconds]
  exact Int.tdiv_add_tmod' d 1000000000
/-! ## The loop body, case by case -/

theorem withLabels_of_writable (repo sha : GoString) (h : writable repo sha = true) :
    sliceTo sha 8 = some (sha.take 8) ∧
      GaugeVec.withLabels (repo, sha.take 8) = some (repo, sha.take 8) := by
  obtain ⟨h1, h2, h3⟩ := (writable_iff repo sha).mp h
  exact ⟨by simp [sliceTo, h1], by simp [GaugeVec.withLabels, h2, h3]⟩

theorem withLabels_of_not_writable (repo sha : GoString) (h : writable repo sha = false) :
    sliceTo sha 8 = none ∨
      (sliceTo sha 8 = some (sha.take 8) ∧ GaugeVec.withLabels (repo, sha.take 8) = none) := by
  by_cases hl : 8 ≤ sha.length
  · right
    refine ⟨by simp [sliceTo, hl], ?_⟩
    have hv : (ValidString repo && ValidString (sha.take 8)) = false := by
      simpa [writable, hl] using h
    simp [GaugeVec.withLabels, hv]
  · left
    simp [sliceTo, hl]

theorem processRepo_invalid {Time Val : Type} (env : Env Time Val) (i : Nat) (repo : GoString)
    (s : State Val) (h : ∀ o n, SplitN repo slash 2 ≠ [o, n]) :
    processRepo env i repo s = Outcome.done (s.log (Event.invalidRepository repo)) := by
  unfold processRepo
  split
  · next o n heq => exact absurd heq (h o n)
  · rfl

theorem processRepo_crash {Time Val : Type} (env : Env Time Val) (i : Nat) (repo o n : GoString)
    (s : State Val) (h : SplitN repo slash 2 = [o, n])
    (hf : fetchRecentCommitInfo env i o n = FetchResult.crash) :
    processRepo env i repo s = Outcome.aborted (s.log (Event.fetch o n)) := by
  simp [processRepo, h, hf]

theorem processRepo_error {Time Val : Type} (env : Env Time Val) (i : Nat) (repo o n : GoString)
    (s : State Val) (e : FetchError) (h : SplitN repo slash 2 = [o, n])
    (hf : fetchRecentCommitInfo env i o n = FetchResult.error e) :
    processRepo env i repo s =
      Outcome.done ((s.log (Event.fetch o n)).log (Event.fetchFailed repo e)) := by
  simp [processRepo, h, hf]

theorem processRepo_unwritable {Time Val : Type} (env : Env Time Val) (i : Nat)
    (repo o n : GoString) (s : State Val) (t : Time) (sha : GoString)
    (h : SplitN repo slash 2 = [o, n])
    (hf : fetchRecentCommitInfo env i o n = FetchResult.ok t sha)
    (hw : writable repo sha = false) :
    processRepo env i repo s = Outcome.aborted (s.log (Event.fetch o n)) := by
  rcases withLabels_of_not_writable repo sha hw with h8 | ⟨h8, hl⟩
  · simp [processRepo, h, hf, h8]
  · simp [processRepo, h, hf, h8, hl]

theorem processRepo_ok {Time Val : Type} (env : Env Time Val) (i : Nat) (repo o n : GoString)
    (s : State Val) (t : Time) (sha : GoString) (h : SplitN repo slash 2 = [o, n])
    (hf : fetchRecentCommitInfo env i o n = FetchResult.ok t sha)
    (hw : writable repo sha = true) :
    processRepo env i repo s = Outcome.done (writeState env i repo o n t sha s) := by
  obtain ⟨h8, hl⟩ := withLabels_of_writable repo sha hw
  simp [processRepo, h, hf, h8, hl, writeState, State.log]

/-- Every run of the loop body is one of the five cases. -/
theorem processRepo_cases {Time Val : Type} (env : Env Time Val) (i : Nat) (repo : GoString)
    (s : State Val) :
    ((∀ o n, SplitN repo slash 2 ≠ [o, n]) ∧
        processRepo env i repo s = Outcome.done (s.log (Event.invalidRepository repo))) ∨
    ∃ o n, SplitN repo slash 2 = [o, n] ∧
      ((fetchRecentCommitInfo env i o n = FetchResult.crash ∧
          processRepo env i repo s = Outcome.aborted (s.log (Event.fetch o n))) ∨
       (∃ e, fetchRecentCommitInfo env i o n = FetchResult.error e ∧
          processRepo env i repo s =
            Outcome.done ((s.log (Event.fetch o n)).log (Event.fetchFailed repo e))) ∨
       (∃ t sha, fetchRecentCommitInfo env i o n = FetchResult.ok t sha ∧
          writable repo sha = false ∧
          processRepo env i repo s = Outcome.aborted (s.log (Event.fetch o n))) ∨
       (∃ t sha, fetchRecentCommitInfo env i o n = FetchResult.ok t sha ∧
          writable repo sha = true ∧
          processRepo env i repo s = Outcome.done (writeState env i repo o n t sha s))) := by
  by_cases h : ∃ o n, SplitN repo slash 2 = [o, n]
  · obtain ⟨o, n, hs⟩ := h
    refine Or.inr ⟨o, n, hs, ?_⟩
    cases hf : fetchRecentCommitInfo env i o n with
    | crash => exact Or.inl ⟨rfl, processRepo_crash env i repo o n s hs hf⟩
    | error e => exact Or.inr (Or.inl ⟨e, rfl, processRepo_error env i repo o n s e hs hf⟩)
    | ok t sha =>
      cases hw : writable repo sha with
      | false =>
        exact Or.inr (Or.inr (Or.inl ⟨t, sha, rfl, hw,
          processRepo_unwritable env i repo o n s t sha hs hf hw⟩))
      | true =>
        exact Or.inr (Or.inr (Or.inr ⟨t, sha, rfl, hw,
          processRepo_ok env i repo o n s t sha hs hf hw⟩))
  · refine Or.inl ⟨fun o n hs => h ⟨o, n, hs⟩, processRepo_invalid env i repo s ?_⟩
    exact fun o n hs => h ⟨o, n, hs⟩

theorem cycleFrom_append {Time Val : Type} (env : Env Time Val) (pre rest : List GoString) :
    ∀ (i : Nat) (s : State Val), cycleFrom env i (pre ++ rest) s =
      match cycleFrom env i pre s with
      | Outcome.done s1 => cycleFrom env (i + pre.length) rest s1
      | Outcome.aborted s1 => Outcome.aborted s1 := by
  induction pre with
  | nil => intro i s; simp [cycleFrom]
  | cons repo pre ih =>
    intro i s
    simp only [List.cons_append, cycleFrom]
    cases hp : processRepo env i repo s with
    | done s' =>
      have hlen : i + (repo :: pre).length = i + 1 + pre.length := by
        simp only [List.length_cons]; omega
      show cycleFrom env (i + 1) (pre ++ rest) s' = _
      rw [ih (i + 1) s', hlen]
    | aborted s' => rfl

/-! ## The cycle: what the store holds afterwards -/

/-- The loop body leaves the store alone or makes the one write of `writeState`. -/
theorem processRepo_store {Time Val : Type} (env : Env Time Val) (i : Nat) (repo : GoString)
    (s : State Val) :
    (processRepo env i repo s).state.store = s.store ∨
    ∃ o n t sha, SplitN repo slash 2 = [o, n] ∧
      fetchRecentCommitInfo env i o n = FetchResult.ok t sha ∧ writable repo sha = true ∧
      processRepo env i repo s = Outcome.done (writeState env i repo o n t sha s) := by
  rcases processRepo_cases env i repo s with ⟨_, hp⟩ | ⟨o, n, hs, h⟩
  · left; rw [hp]; rfl
  · rcases h with ⟨_, hp⟩ | ⟨e, _, hp⟩ | ⟨t, sha, _, _, hp⟩ | ⟨t, sha, hf, hw, hp⟩
    · left; rw [hp]; rfl
    · left; rw [hp]; rfl
    · left; rw [hp]; rfl
    · right
      exact ⟨o, n, t, sha, hs, hf, hw, hp⟩

/-- A sample survives a cycle unless a successful fetch made in the cycle writes its
labels. A target is reached when the cycle over the targets before it completes. -/
theorem cycleFrom_frame {Time Val : Type} (env : Env Time Val) (e : Labels × Val) :
    ∀ (repos : List GoString) (i : Nat) (s : State Val), e ∈ s.store →
      (∀ pre repo post s1 o n t sha, repos = pre ++ repo :: post →
        cycleFrom env i pre s = Outcome.done s1 → SplitN repo slash 2 = [o, n] →
        fetchRecentCommitInfo env (i + pre.length) o n = FetchResult.ok t sha →
        8 ≤ sha.length → e.1 ≠ (repo, sha.take 8)) →
      e ∈ (cycleFrom env i repos s).state.store := by
  intro repos
  induction repos with
  | nil => intro i s he _; exact he
  | cons repo rest ih =>
    intro i s he hw
    have htail : ∀ s', processRepo env i repo s = Outcome.done s' →
        ∀ pre r post s1 o n t sha, rest = pre ++ r :: post →
        cycleFrom env (i + 1) pre s' = Outcome.done s1 → SplitN r slash 2 = [o, n] →
        fetchRecentCommitInfo env (i + 1 + pre.length) o n = FetchResult.ok t sha →
        8 ≤ sha.length → e.1 ≠ (r, sha.take 8) := by
      intro s' hp pre r post s1 o n t sha h1 h2 h3 h4 h5
      have h6 : i + 1 + pre.length = i + (repo :: pre).length := by
        simp only [List.length_cons]; omega
      rw [h6] at h4
      refine hw (repo :: pre) r post s1 o n t sha (by rw [h1]; rfl) ?_ h3 h4 h5
      simp only [cycleFrom, hp]
      exact h2
    simp only [cycleFrom]
    rcases processRepo_store env i repo s with hst | ⟨o, n, t, sha, hs, hf, hwr, hp⟩
    · cases hp : processRepo env i repo s with
      | done s' =>
        rw [hp] at hst
        exact ih (i + 1) s' (by rw [show s'.store = s.store from hst]; exact he)
          (htail s' hp)
      | aborted s' =>
        rw [hp] at hst
        show e ∈ s'.store
        rw [show s'.store = s.store from hst]; exact he
    · rw [hp]
      refine ih (i + 1) _ ?_ (htail _ hp)
      have hne := hw [] repo rest s o n t sha rfl rfl hs (by simpa using hf)
        ((writable_iff repo sha).mp hwr).1
      exact GaugeVec.mem_setValue_of_ne s.store _ _ e he hne

/-- No label pair leaves the store in a cycle. -/
theorem cycleFrom_labels {Time Val : Type} (env : Env Time Val) (k : Labels) :
    ∀ (repos : List GoString) (i : Nat) (s : State Val), k ∈ GaugeVec.labels s.store →
      k ∈ GaugeVec.labels (cycleFrom env i repos s).state.store := by
  intro repos
  induction repos with
  | nil => intro i s hk; exact hk
  | cons repo rest ih =>
    intro i s hk
    simp only [cycleFrom]
    rcases processRepo_store env i repo s with hst | ⟨o, n, t, sha, hs, hf, hwr, hp⟩
    · cases hp : processRepo env i repo s with
      | done s' =>
        rw [hp] at hst
        exact ih (i + 1) s' (by rw [show s'.store = s.store from hst]; exact hk)
      | aborted s' =>
        rw [hp] at hst
        show k ∈ GaugeVec.labels s'.store
        rw [show s'.store = s.store from hst]; exact hk
    · rw [hp]
      refine ih (i + 1) _ ?_
      exact (GaugeVec.mem_labels_setValue s.store _ k _).mpr (Or.inr hk)

/-- The repository labels held after a cycle in which every fetch returns an error or a
success whose write goes through. -/
theorem cycleFrom_repositories {Time Val : Type} (env : Env Time Val) :
    ∀ (repos : List GoString) (i : Nat) (s : State Val),
      (∀ j repo o n, repos[j]? = some repo → SplitN repo slash 2 = [o, n] →
        (∃ e, fetchRecentCommitInfo env (i + j) o n = FetchResult.error e) ∨
        ∃ t sha, fetchRecentCommitInfo env (i + j) o n = FetchResult.ok t sha ∧
          writable repo sha = true) →
      ∃ s', cycleFrom env i repos s = Outcome.done s' ∧
        ∀ r, r ∈ GaugeVec.repositories s'.store ↔
          r ∈ GaugeVec.repositories s.store ∨
          ∃ j o n t sha, repos[j]? = some r ∧ SplitN r slash 2 = [o, n] ∧
            fetchRecentCommitInfo env (i + j) o n = FetchResult.ok t sha := by
  intro repos
  induction repos with
  | nil =>
    intro i s _
    exact ⟨s, rfl, fun r => by simp⟩
  | cons repo rest ih =>
    intro i s hgood
    have htail : ∀ j repo' o n, rest[j]? = some repo' → SplitN repo' slash 2 = [o, n] →
        (∃ e, fetchRecentCommitInfo env (i + 1 + j) o n = FetchResult.error e) ∨
        ∃ t sha, fetchRecentCommitInfo env (i + 1 + j) o n = FetchResult.ok t sha ∧
          writable repo' sha = true := by
      intro j repo' o n h1 h2
      have h5 : i + 1 + j = i + (j + 1) := by omega
      rw [h5]
      exact hgood (j + 1) repo' o n (by simpa using h1) h2
    -- the successful fetches of the tail, re-indexed
    have hshift : ∀ r, (∃ j o n t sha, rest[j]? = some r ∧ SplitN r slash 2 = [o, n] ∧
          fetchRecentCommitInfo env (i + 1 + j) o n = FetchResult.ok t sha) →
        ∃ j o n t sha, (repo :: rest)[j]? = some r ∧ SplitN r slash 2 = [o, n] ∧
          fetchRecentCommitInfo env (i + j) o n = FetchResult.ok t sha := by
      rintro r ⟨j, o, n, t, sha, h1, h2, h3⟩
      refine ⟨j + 1, o, n, t, sha, by simpa using h1, h2, ?_⟩
      have h5 : i + (j + 1) = i + 1 + j := by omega
      rw [h5]; exact h3
    have hunshift : ∀ r j o n t sha, (repo :: rest)[j]? = some r → SplitN r slash 2 = [o, n] →
          fetchRecentCommitInfo env (i + j) o n = FetchResult.ok t sha →
        (j = 0 ∧ r = repo) ∨ ∃ j' o n t sha, rest[j']? = some r ∧ SplitN r slash 2 = [o, n] ∧
          fetchRecentCommitInfo env (i + 1 + j') o n = FetchResult.ok t sha := by
      intro r j o n t sha h1 h2 h3
      cases j with
      | zero =>
        left
        simp only [List.getElem?_cons_zero, Option.some.injEq] at h1
        exact ⟨rfl, h1.symm⟩
      | succ j' =>
        right
        refine ⟨j', o, n, t, sha, by simpa using h1, h2, ?_⟩
        have h5 : i + 1 + j' = i + (j' + 1) := by omega
        rw [h5]; exact h3
    simp only [cycleFrom]
    rcases processRepo_cases env i repo s with ⟨hno, hp⟩ | ⟨o, n, hs, h⟩
    · rw [hp]
      obtain ⟨s', hc, hiff⟩ := ih (i + 1) (s.log (Event.invalidRepository repo)) htail
      refine ⟨s', hc, fun r => ?_⟩
      rw [hiff r]
      constructor
      · rintro (h1 | h1)
        · exact Or.inl h1
        · exact Or.inr (hshift r h1)
      · rintro (h1 | ⟨j, o, n, t, sha, h1, h2, h3⟩)
        · exact Or.inl h1
        · rcases hunshift r j o n t sha h1 h2 h3 with ⟨_, hr⟩ | h4
          · subst hr; exact absurd h2 (hno o n)
          · exact Or.inr h4
    · have hhead := hgood 0 repo o n (by simp) hs
      simp only [Nat.add_zero] at hhead
      rcases h with ⟨hf, _⟩ | ⟨e, hf, hp⟩ | ⟨t, sha, hf, hl, _⟩ | ⟨t, sha, hf, hl, hp⟩
      · rw [hf] at hhead
        rcases hhead with ⟨e, h1⟩ | ⟨t, sha, h1, _⟩ <;> cases h1
      · rw [hp]
        obtain ⟨s', hc, hiff⟩ := ih (i + 1) _ htail
        refine ⟨s', hc, fun r => ?_⟩
        rw [hiff r]
        constructor
        · rintro (h1 | h1)
          · exact Or.inl h1
          · exact Or.inr (hshift r h1)
        · rintro (h1 | ⟨j, o', n', t, sha, h1, h2, h3⟩)
          · exact Or.inl h1
          · rcases hunshift r j o' n' t sha h1 h2 h3 with ⟨hj, hr⟩ | h4
            · subst hr; subst hj
              rw [hs] at h2
              simp only [List.cons.injEq, and_true] at h2
              obtain ⟨rfl, rfl⟩ := h2
              simp only [Nat.add_zero] at h3
              rw [hf] at h3
              cases h3
            · exact Or.inr h4
      · rw [hf] at hhead
        rcases hhead with ⟨e, h1⟩ | ⟨t', sha', h1, h2⟩
        · cases h1
        · cases h1; rw [hl] at h2; cases h2
      · rw [hp]
        obtain ⟨s', hc, hiff⟩ := ih (i + 1) (writeState env i repo o n t sha s) htail
        refine ⟨s', hc, fun r => ?_⟩
        rw [hiff r]
        have hw : ∀ r, r ∈ GaugeVec.repositories (writeState env i repo o n t sha s).store ↔
            r = repo ∨ r ∈ GaugeVec.repositories s.store :=
          fun r => GaugeVec.mem_repositories_setValue s.store _ _ r
        rw [hw r]
        constructor
        · rintro ((h1 | h1) | h1)
          · subst h1
            exact Or.inr ⟨0, o, n, t, sha, by simp, hs, by simpa using hf⟩
          · exact Or.inl h1
          · exact Or.inr (hshift r h1)
        · rintro (h1 | ⟨j, o', n', t', sha', h1, h2, h3⟩)
          · exact Or.inl (Or.inr h1)
          · rcases hunshift r j o' n' t' sha' h1 h2 h3 with ⟨_, hr⟩ | h4
            · exact Or.inl (Or.inl hr)
            · exact Or.inr h4

/-- A cycle in which every fetch made returns an error completes and leaves the store
as it was. -/
theorem cycleFrom_allFail {Time Val : Type} (env : Env Time Val) :
    ∀ (repos : List GoString) (i : Nat) (s : State Val),
      (∀ j repo o n, repos[j]? = some repo → SplitN repo slash 2 = [o, n] →
        ∃ e, fetchRecentCommitInfo env (i + j) o n = FetchResult.error e) →
      ∃ s', cycleFrom env i repos s = Outcome.done s' ∧ s'.store = s.store := by
  intro repos
  induction repos with
  | nil => intro i s _; exact ⟨s, rfl, rfl⟩
  | cons repo rest ih =>
    intro i s hfail
    have htail : ∀ j repo' o n, rest[j]? = some repo' → SplitN repo' slash 2 = [o, n] →
        ∃ e, fetchRecentCommitInfo env (i + 1 + j) o n = FetchResult.error e := by
      intro j repo' o n h1 h2
      have h5 : i + 1 + j = i + (j + 1) := by omega
      rw [h5]
      exact hfail (j + 1) repo' o n (by simpa using h1) h2
    simp only [cycleFrom]
    rcases processRepo_cases env i repo s with ⟨_, hp⟩ | ⟨o, n, hs, h⟩
    · rw [hp]
      obtain ⟨s', hc, hst⟩ := ih (i + 1) _ htail
      exact ⟨s', hc, hst⟩
    · obtain ⟨e, hhead⟩ := hfail 0 repo o n (by simp) hs
      simp only [Nat.add_zero] at hhead
      rcases h with ⟨hf, _⟩ | ⟨e', hf, hp⟩ | ⟨t, sha, hf, _, _⟩ | ⟨t, sha, hf, _, _⟩
      · rw [hf] at hhead; cases hhead
      · rw [hp]
        obtain ⟨s', hc, hst⟩ := ih (i + 1) _ htail
        exact ⟨s', hc, hst⟩
      · rw [hf] at hhead; cases hhead
      · rw [hf] at hhead; cases hhead

/-- A cycle completes exactly when no fetch fails at run time and the write of every
successful one goes through. -/
theorem cycleFrom_completed_iff {Time Val : Type} (env : Env Time Val) :
    ∀ (repos : List GoString) (i : Nat) (s : State Val),
      (cycleFrom env i repos s).completed = true ↔
        ∀ j repo o n, repos[j]? = some repo → SplitN repo slash 2 = [o, n] →
          fetchRecentCommitInfo env (i + j) o n ≠ FetchResult.crash ∧
          ∀ t sha, fetchRecentCommitInfo env (i + j) o n = FetchResult.ok t sha →
            writable repo sha = true := by
  intro repos
  induction repos with
  | nil => intro i s; simp [cycleFrom, Outcome.completed]
  | cons repo rest ih =>
    intro i s
    have hsplit : (∀ j repo' o n, (repo :: rest)[j]? = some repo' →
          SplitN repo' slash 2 = [o, n] →
          fetchRecentCommitInfo env (i + j) o n ≠ FetchResult.crash ∧
          ∀ t sha, fetchRecentCommitInfo env (i + j) o n = FetchResult.ok t sha →
            writable repo' sha = true) ↔
        ((∀ o n, SplitN repo slash 2 = [o, n] →
          fetchRecentCommitInfo env i o n ≠ FetchResult.crash ∧
          ∀ t sha, fetchRecentCommitInfo env i o n = FetchResult.ok t sha →
            writable repo sha = true) ∧
        ∀ j repo' o n, rest[j]? = some repo' → SplitN repo' slash 2 = [o, n] →
          fetchRecentCommitInfo env (i + 1 + j) o n ≠ FetchResult.crash ∧
          ∀ t sha, fetchRecentCommitInfo env (i + 1 + j) o n = FetchResult.ok t sha →
            writable repo' sha = true) := by
      constructor
      · intro h
        refine ⟨fun o n hs => by simpa using h 0 repo o n (by simp) hs, ?_⟩
        intro j repo' o n h1 h2
        have h5 : i + 1 + j = i + (j + 1) := by omega
        rw [h5]
        exact h (j + 1) repo' o n (by simpa using h1) h2
      · rintro ⟨h0, h1⟩ j repo' o n h2 h3
        cases j with
        | zero =>
          simp only [List.getElem?_cons_zero, Option.some.injEq] at h2
          subst h2
          simpa using h0 o n h3
        | succ j' =>
          have h5 : i + (j' + 1) = i + 1 + j' := by omega
          rw [h5]
          exact h1 j' repo' o n (by simpa using h2) h3
    rw [hsplit]
    simp only [cycleFrom]
    rcases processRepo_cases env i repo s with ⟨hno, hp⟩ | ⟨o, n, hs, h⟩
    · rw [hp]
      show (cycleFrom env (i + 1) rest _).completed = true ↔ _
      rw [ih (i + 1) _]
      constructor
      · intro h; exact ⟨fun o n h1 => absurd h1 (hno o n), h⟩
      · intro h; exact h.2
    · have honly : ∀ o' n', SplitN repo slash 2 = [o', n'] → o' = o ∧ n' = n := by
        intro o' n' h1
        rw [hs] at h1
        simp only [List.cons.injEq, and_true] at h1
        exact ⟨h1.1.symm, h1.2.symm⟩
      rcases h with ⟨hf, hp⟩ | ⟨e, hf, hp⟩ | ⟨t, sha, hf, hl, hp⟩ | ⟨t, sha, hf, hl, hp⟩
      · rw [hp]
        constructor
        · intro h; simp [Outcome.completed] at h
        · intro h; exact absurd hf (h.1 o n hs).1
      · rw [hp]
        show (cycleFrom env (i + 1) rest _).completed = true ↔ _
        rw [ih (i + 1) _]
        constructor
        · intro h
          refine ⟨fun o' n' h1 => ?_, h⟩
          obtain ⟨rfl, rfl⟩ := honly o' n' h1
          rw [hf]
          exact ⟨by simp, fun t sha h2 => by cases h2⟩
        · intro h; exact h.2
      · rw [hp]
        constructor
        · intro h; simp [Outcome.completed] at h
        · intro h
          have := (h.1 o n hs).2 t sha hf
          rw [hl] at this
          cases this
      · rw [hp]
        show (cycleFrom env (i + 1) rest _).completed = true ↔ _
        rw [ih (i + 1) _]
        constructor
        · intro h
          refine ⟨fun o' n' h1 => ?_, h⟩
          obtain ⟨rfl, rfl⟩ := honly o' n' h1
          rw [hf]
          refine ⟨by simp, fun t' sha' h2 => ?_⟩
          cases h2; exact hl
        · intro h; exact h.2

/-- A cycle that does not complete stops at a first target: the targets before it were
completed, and its fetch failed at run time or succeeded with a hash that line 85 cannot
write. -/
theorem cycleFrom_first_failure {Time Val : Type} (env : Env Time Val) :
    ∀ (repos : List GoString) (i : Nat) (s : State Val),
      (cycleFrom env i repos s).completed = false →
      ∃ pre repo post s1 o n, repos = pre ++ repo :: post ∧
        cycleFrom env i pre s = Outcome.done s1 ∧ SplitN repo slash 2 = [o, n] ∧
        (fetchRecentCommitInfo env (i + pre.length) o n = FetchResult.crash ∨
          ∃ t sha, fetchRecentCommitInfo env (i + pre.length) o n = FetchResult.ok t sha ∧
            writable repo sha = false) := by
  intro repos
  induction repos with
  | nil => intro i s h; simp [cycleFrom, Outcome.completed] at h
  | cons repo rest ih =>
    intro i s h
    have hlift : ∀ s', processRepo env i repo s = Outcome.done s' →
        (cycleFrom env (i + 1) rest s').completed = false →
        ∃ pre r post s1 o n, repo :: rest = pre ++ r :: post ∧
          cycleFrom env i pre s = Outcome.done s1 ∧ SplitN r slash 2 = [o, n] ∧
          (fetchRecentCommitInfo env (i + pre.length) o n = FetchResult.crash ∨
            ∃ t sha, fetchRecentCommitInfo env (i + pre.length) o n = FetchResult.ok t sha ∧
              writable r sha = false) := by
      intro s' hp hrest
      obtain ⟨pre, r, post, s1, o, n, h1, h2, h3, h4⟩ := ih (i + 1) s' hrest
      have h6 : i + 1 + pre.length = i + (repo :: pre).length := by
        simp only [List.length_cons]; omega
      rw [h6] at h4
      refine ⟨repo :: pre, r, post, s1, o, n, by rw [h1]; rfl, ?_, h3, h4⟩
      simp only [cycleFrom, hp]
      exact h2
    simp only [cycleFrom] at h
    rcases processRepo_cases env i repo s with ⟨_, hp⟩ | ⟨o, n, hs, hc⟩
    · rw [hp] at h
      exact hlift _ hp h
    · rcases hc with ⟨hf, _⟩ | ⟨e, _, hp⟩ | ⟨t, sha, hf, hl, _⟩ | ⟨t, sha, _, _, hp⟩
      · exact ⟨[], repo, rest, s, o, n, rfl, rfl, hs, Or.inl (by simpa using hf)⟩
      · rw [hp] at h
        exact hlift _ hp h
      · exact ⟨[], repo, rest, s, o, n, rfl, rfl, hs, Or.inr ⟨t, sha, by simpa using hf, hl⟩⟩
      · rw [hp] at h
        exact hlift _ hp h

/-! ## Invariants of the loop -/

/-- A property of the state that the loop body keeps is kept by a cycle. -/
theorem cycleFrom_invariant {Time Val : Type} (env : Env Time Val) (P : State Val → Prop)
    (hstep : ∀ i repo s, P s → P (processRepo env i repo s).state) :
    ∀ (repos : List GoString) (i : Nat) (s : State Val), P s →
      P (cycleFrom env i repos s).state := by
  intro repos
  induction repos with
  | nil => intro i s hs; exact hs
  | cons repo rest ih =>
    intro i s hs
    have h1 := hstep i repo s hs
    simp only [cycleFrom]
    cases hp : processRepo env i repo s with
    | done s' => rw [hp] at h1; exact ih (i + 1) s' h1
    | aborted s' => rw [hp] at h1; exact h1

/-- A property of the state that the loop body keeps is kept by any number of cycles. -/
theorem updateCommitMetrics_invariant {Time Val : Type} (repos : List GoString)
    (P : State Val → Prop)
    (hstep : ∀ (env : Env Time Val) i repo s, P s → P (processRepo env i repo s).state) :
    ∀ (envs : List (Env Time Val)) (s : State Val), P s →
      P (updateCommitMetrics repos envs s).state := by
  intro envs
  induction envs with
  | nil => intro s hs; exact hs
  | cons env later ih =>
    intro s hs
    have h1 := cycleFrom_invariant env P (hstep env) repos 0 s hs
    simp only [updateCommitMetrics, collectionCycle]
    cases hc : cycleFrom env 0 repos s with
    | done s' => rw [hc] at h1; exact ih s' h1
    | aborted s' => rw [hc] at h1; exact h1

/-- The loop body keeps the store in step with the writes recorded in the trace. -/
theorem processRepo_value {Time Val : Type} (env : Env Time Val) (i : Nat) (repo : GoString)
    (s : State Val) (hs : ∀ k, GaugeVec.value s.store k = lastWrite k s.trace) :
    ∀ k, GaugeVec.value (processRepo env i repo s).state.store k =
      lastWrite k (processRepo env i repo s).state.trace := by
  intro k
  rcases processRepo_cases env i repo s with ⟨_, hp⟩ | ⟨o, n, _, h⟩
  · rw [hp]
    simp only [Outcome.state, State.log, lastWrite_append_one]
    exact hs k
  · rcases h with ⟨_, hp⟩ | ⟨e, _, hp⟩ | ⟨t, sha, _, _, hp⟩ | ⟨t, sha, _, _, hp⟩
    · rw [hp]
      simp only [Outcome.state, State.log, lastWrite_append_one]
      exact hs k
    · rw [hp]
      simp only [Outcome.state, State.log, lastWrite_append_one]
      exact hs k
    · rw [hp]
      simp only [Outcome.state, State.log, lastWrite_append_one]
      exact hs k
    · rw [hp]
      have htr : (writeState env i repo o n t sha s).trace =
          ((s.trace ++ [Event.fetch o n]) ++
            [Event.set (repo, sha.take 8) (env.secondsSince (env.now i) t)]) ++
            [Event.debug repo (env.secondsSince (env.nowLog i) t) (sha.take 8)] := by
        simp [writeState]
      simp only [Outcome.state]
      rw [htr]
      simp only [lastWrite_append_one]
      show GaugeVec.value (GaugeVec.setValue s.store _ _) k = _
      rw [GaugeVec.value_setValue, hs k]

/-- The loop body keeps the label pairs of the store distinct. -/
theorem processRepo_nodup {Time Val : Type} (env : Env Time Val) (i : Nat) (repo : GoString)
    (s : State Val) (hs : (GaugeVec.labels s.store).Nodup) :
    (GaugeVec.labels (processRepo env i repo s).state.store).Nodup := by
  rcases processRepo_store env i repo s with hst | ⟨o, n, t, sha, _, _, _, hp⟩
  · rw [hst]; exact hs
  · rw [hp]
    exact GaugeVec.nodup_labels_setValue s.store _ _ hs

theorem updateCommitMetrics_append {Time Val : Type} (repos : List GoString)
    (envs₁ envs₂ : List (Env Time Val)) :
    ∀ (s : State Val), updateCommitMetrics repos (envs₁ ++ envs₂) s =
      match updateCommitMetrics repos envs₁ s with
      | Outcome.done s1 => updateCommitMetrics repos envs₂ s1
      | Outcome.aborted s1 => Outcome.aborted s1 := by
  induction envs₁ with
  | nil => intro s; simp [updateCommitMetrics]
  | cons env later ih =>
    intro s
    simp only [List.cons_append, updateCommitMetrics]
    cases hc : collectionCycle env repos s with
    | done s' => exact ih s'
    | aborted s' => rfl

/-- The loop body removes no label pair from the store. -/
theorem processRepo_labels {Time Val : Type} (env : Env Time Val) (i : Nat) (repo : GoString)
    (s : State Val) (k : Labels) (hk : k ∈ GaugeVec.labels s.store) :
    k ∈ GaugeVec.labels (processRepo env i repo s).state.store := by
  rcases processRepo_store env i repo s with hst | ⟨o, n, t, sha, _, _, _, hp⟩
  · rw [hst]; exact hk
  · rw [hp]
    exact (GaugeVec.mem_labels_setValue s.store _ k _).mpr (Or.inr hk)

/-- A label pair written by a successful fetch of some cycle of a run is held at the end of
the run. -/
theorem updateCommitMetrics_holds_written {Time Val : Type} (repos : List GoString)
    (envs₁ envs₂ : List (Env Time Val)) (env : Env Time Val) (pre post : List GoString)
    (repo o n : GoString) (s s1 s2 : State Val) (t : Time) (sha : GoString)
    (hrepos : repos = pre ++ repo :: post)
    (hrun : updateCommitMetrics repos envs₁ s = Outcome.done s1)
    (hpre : collectionCycle env pre s1 = Outcome.done s2)
    (hsplit : SplitN repo slash 2 = [o, n])
    (hfetch : fetchRecentCommitInfo env pre.length o n = FetchResult.ok t sha)
    (hw : writable repo sha = true) :
    (repo, sha.take 8) ∈
      GaugeVec.labels (updateCommitMetrics repos (envs₁ ++ env :: envs₂) s).state.store := by
  have hkeep : ∀ (later : List (Env Time Val)) (s' : State Val),
      (repo, sha.take 8) ∈ GaugeVec.labels s'.store →
      (repo, sha.take 8) ∈ GaugeVec.labels (updateCommitMetrics repos later s').state.store :=
    updateCommitMetrics_invariant repos
      (fun s' : State Val => (repo, sha.take 8) ∈ GaugeVec.labels s'.store)
      (fun env' i r s' hs' => processRepo_labels env' i r s' _ hs')
  rw [updateCommitMetrics_append, hrun]
  simp only [updateCommitMetrics]
  have hcyc : collectionCycle env repos s1 =
      cycleFrom env (pre.length + 1) post (writeState env pre.length repo o n t sha s2) := by
    subst hrepos
    unfold collectionCycle at hpre ⊢
    rw [cycleFrom_append env pre (repo :: post) 0 s1, hpre]
    simp only [Nat.zero_add, cycleFrom]
    rw [processRepo_ok env pre.length repo o n s2 t sha hsplit hfetch hw]
  have hin : (repo, sha.take 8) ∈
      GaugeVec.labels (writeState env pre.length repo o n t sha s2).store :=
    (GaugeVec.mem_labels_setValue s2.store _ _ _).mpr (Or.inl rfl)
  have hafter := cycleFrom_labels env (repo, sha.take 8) post (pre.length + 1) _ hin
  rw [← hcyc] at hafter
  cases hc : collectionCycle env repos s1 with
  | done s' =>
    rw [hc] at hafter
    exact hkeep envs₂ s' hafter
  | aborted s' =>
    rw [hc] at hafter
    exact hafter

/-! ## The split step -/

theorem indexByte_of_not_mem (sep : Nat) (s : GoString) (h : sep ∉ s) :
    indexByte sep s = none := by
  induction s with
  | nil => rfl
  | cons c cs ih =>
    have h1 : c ≠ sep := fun hc => h (hc ▸ List.mem_cons_self _ _)
    have h2 : sep ∉ cs := fun hc => h (List.mem_cons_of_mem _ hc)
    simp [indexByte, h1, ih h2]

theorem indexByte_append (sep : Nat) (a b : GoString) (h : sep ∉ a) :
    indexByte sep (a ++ sep :: b) = some a.length := by
  induction a with
  | nil => simp [indexByte]
  | cons c cs ih =>
    have h1 : c ≠ sep := fun hc => h (hc ▸ List.mem_cons_self _ _)
    have h2 : sep ∉ cs := fun hc => h (List.mem_cons_of_mem _ hc)
    simp [indexByte, h1, ih h2]

theorem SplitN_two_of_not_mem (repo : GoString) (h : slash ∉ repo) :
    SplitN repo slash 2 = [repo] := by
  simp [SplitN, indexByte_of_not_mem slash repo h]

theorem SplitN_two_append (a b : GoString) (h : slash ∉ a) :
    SplitN (a ++ slash :: b) slash 2 = [a, b] := by
  simp [SplitN, indexByte_append slash a b h]


/-! ## The claims -/

/-- C1, the code at its failing inputs. With the targets `c/d` and `a/b`, where `c/d` is
answered `200` with `[{}]` and the fetch for `a/b` would succeed, the fetch for `c/d` fails at
run time and the cycle is aborted there: `a/b` is neither fetched nor written, so a failed
fetch does prevent the write of another target. When `c/d` fails with an error value
instead, `a/b` is written. And for the identifier `a/\xff`, which splits and whose fetch
succeeds with a 16-byte hash, `With` rejects the label and no sample is written. -/
theorem C1_failed_fetch_blocks_other_target :
    fetchRecentCommitInfo crashFirstEnv 0 (ascii "c") (ascii "d") = FetchResult.crash ∧
    fetchRecentCommitInfo crashFirstEnv 1 (ascii "a") (ascii "b") =
      FetchResult.ok 1704067200 (ascii "abcdef1234567890") ∧
    collectionCycle crashFirstEnv [ascii "c/d", ascii "a/b"] State.empty =
      Outcome.aborted { store := [], trace := [Event.fetch (ascii "c") (ascii "d")] } ∧
    ascii "a/b" ∉ GaugeVec.repositories
      (collectionCycle crashFirstEnv [ascii "c/d", ascii "a/b"] State.empty).state.store ∧
    (collectionCycle demoEnv [ascii "c/d", ascii "a/b"] State.empty).state.store =
      [((ascii "a/b", ascii "abcdef12"), 5)] ∧
    SplitN (ascii "a/" ++ [0xFF]) slash 2 = [ascii "a", [0xFF]] ∧
    fetchRecentCommitInfo demoEnv 0 (ascii "a") [0xFF] =
      FetchResult.ok 1704067200 (ascii "abcdef1234567890") ∧
    collectionCycle demoEnv [ascii "a/" ++ [0xFF]] State.empty =
      Outcome.aborted { store := [], trace := [Event.fetch (ascii "a") [0xFF]] } := by
  decide

/-- C2: one collection cycle, from any store and under any fetch outcomes, removes no
sample; a sample whose label pair no successful fetch made in the cycle writes is held
unchanged afterwards (a fetch is made for a target when the cycle over the targets before
it completes and the identifier splits); and when every fetch returns an error (every
target is malformed or fails to fetch) the cycle completes with the store exactly as
before. For a cycle aborted by a runtime failure the store read is the one at the abort. -/
theorem C2_cycle_keeps_samples {Time Val : Type} (env : Env Time Val)
    (repos : List GoString) (s : State Val) :
    (∀ k, k ∈ GaugeVec.labels s.store →
      k ∈ GaugeVec.labels (collectionCycle env repos s).state.store) ∧
    (∀ e, e ∈ s.store →
      (∀ pre repo post s1 o n t sha, repos = pre ++ repo :: post →
        collectionCycle env pre s = Outcome.done s1 → SplitN repo slash 2 = [o, n] →
        fetchRecentCommitInfo env pre.length o n = FetchResult.ok t sha → 8 ≤ sha.length →
        e.1 ≠ (repo, sha.take 8)) →
      e ∈ (collectionCycle env repos s).state.store) ∧
    ((∀ i repo o n, repos[i]? = some repo → SplitN repo slash 2 = [o, n] →
        ∃ err, fetchRecentCommitInfo env i o n = FetchResult.error err) →
      (collectionCycle env repos s).completed = true ∧
      (collectionCycle env repos s).state.store = s.store) := by
  refine ⟨fun k hk => cycleFrom_labels env k repos 0 s hk, ?_, ?_⟩
  · intro e he hw
    refine cycleFrom_frame env e repos 0 s he ?_
    intro pre repo post s1 o n t sha h1 h2 h3 h4 h5
    rw [Nat.zero_add] at h4
    exact hw pre repo post s1 o n t sha h1 h2 h3 h4 h5
  · intro hfail
    have hfail' : ∀ j repo o n, repos[j]? = some repo → SplitN repo slash 2 = [o, n] →
        ∃ err, fetchRecentCommitInfo env (0 + j) o n = FetchResult.error err := by
      intro j repo o n h1 h2
      rw [Nat.zero_add]
      exact hfail j repo o n h1 h2
    obtain ⟨s', hc, hst⟩ := cycleFrom_allFail env repos 0 s hfail'
    unfold collectionCycle
    rw [hc]
    exact ⟨rfl, hst⟩

/-- C2 at a store holding the sample of `a/b` and a cycle over `a/b` and `onlyname` in which
every request fails in transport: the cycle completes and the store is as before. -/
theorem C2_cycle_keeps_samples_witness :
    (collectionCycle (constEnv HttpOutcome.transportError) [ascii "a/b", ascii "onlyname"]
        { store := [((ascii "a/b", ascii "abcdef12"), 5)], trace := [] }).completed = true ∧
    (collectionCycle (constEnv HttpOutcome.transportError) [ascii "a/b", ascii "onlyname"]
        { store := [((ascii "a/b", ascii "abcdef12"), 5)], trace := [] }).state.store =
      [((ascii "a/b", ascii "abcdef12"), 5)] :=
  (C2_cycle_keeps_samples (constEnv HttpOutcome.transportError)
    [ascii "a/b", ascii "onlyname"]
    { store := [((ascii "a/b", ascii "abcdef12"), 5)], trace := [] }).2.2
    (fun _ _ _ _ _ _ => ⟨FetchError.transport, rfl⟩)

/-- C3, as the claim states it, fails three ways. The hash `éééé1234` has 8 characters in
12 bytes and the commit_sha label written is its first 8 bytes, the 4 characters `éééé`,
not its first 8 characters. The identifier `a/\xff` passes the split step and its fetch
succeeds with a 16-byte hash, but `With` rejects the label and nothing is written. And for
a commit dated `0001-01-01T00:00:00Z` the value written is the largest `Duration`,
9223372036.854775807 seconds, not the 63839664005 seconds elapsed. -/
theorem C3_label_and_value_differ :
    RuneCountInString shaAccented = 8 ∧
    takeRunes 8 shaAccented = shaAccented ∧
    (processRepo (goDemoEnv shaAccented (ascii "2024-01-01T00:00:00Z")) 0 (ascii "a/b")
      State.empty).state.store =
        [((ascii "a/b", [0xC3, 0xA9, 0xC3, 0xA9, 0xC3, 0xA9, 0xC3, 0xA9]),
          { sec := 5, nsec := 0 })] ∧
    RuneCountInString [0xC3, 0xA9, 0xC3, 0xA9, 0xC3, 0xA9, 0xC3, 0xA9] = 4 ∧
    SplitN (ascii "a/" ++ [0xFF]) slash 2 = [ascii "a", [0xFF]] ∧
    fetchRecentCommitInfo
      (goDemoEnv (ascii "abcdef1234567890") (ascii "2024-01-01T00:00:00Z")) 0
      (ascii "a") [0xFF] = FetchResult.ok t2024 (ascii "abcdef1234567890") ∧
    processRepo (goDemoEnv (ascii "abcdef1234567890") (ascii "2024-01-01T00:00:00Z")) 0
      (ascii "a/" ++ [0xFF]) State.empty =
        Outcome.aborted { store := [], trace := [Event.fetch (ascii "a") [0xFF]] } ∧
    (processRepo (goDemoEnv (ascii "abcdef1234567890") (ascii "0001-01-01T00:00:00Z")) 0
      (ascii "a/b") State.empty).state.store =
        [((ascii "a/b", ascii "abcdef12"), { sec := 9223372036, nsec := 854775807 })] ∧
    t2024 + 5000000000 - tYear1 = 63839664005 * 1000000000 := by
  decide

/-- C3, amended: for an identifier that passes the split step and is valid UTF-8, and a
successful fetch returning timestamp `T` and a hash of at least 8 bytes whose first 8 bytes
are ASCII, the loop body completes with exactly one store write. Its repository label is
the identifier as configured, its commit_sha label is the first 8 characters of the hash
(here the same as its first 8 bytes), and its value is `time.Since(T).Seconds()` at the
clock reading taken at the write: when the difference fits a `Duration` its whole seconds
and nanoseconds add up to exactly the time elapsed from `T` to that reading, and otherwise
the value is that of the largest or smallest `Duration`. Instants are in nanoseconds and
the value is the pair of operands of the final floating-point sum. -/
theorem C3_successful_fetch_writes_sample
    (http : Nat → GoString → GoString → HttpOutcome) (parseTime : GoString → Option Int)
    (now nowLog : Nat → Int) (i : Nat) (repo o n : GoString) (s : State FloatSeconds)
    (T : Int) (sha : GoString)
    (hsplit : SplitN repo slash 2 = [o, n])
    (hrepo : ValidString repo = true)
    (hfetch : fetchRecentCommitInfo (goEnv http parseTime now nowLog) i o n =
      FetchResult.ok T sha)
    (hlen : 8 ≤ sha.length) (hascii : ∀ b ∈ sha.take 8, b < 128) :
    (processRepo (goEnv http parseTime now nowLog) i repo s).completed = true ∧
    (processRepo (goEnv http parseTime now nowLog) i repo s).state.store =
      GaugeVec.setValue s.store (repo, sha.take 8) (durationSeconds (timeSub (now i) T)) ∧
    ((repo, sha.take 8), durationSeconds (timeSub (now i) T)) ∈
      (processRepo (goEnv http parseTime now nowLog) i repo s).state.store ∧
    (∀ e, e ∈ (processRepo (goEnv http parseTime now nowLog) i repo s).state.store →
      e ∈ s.store ∨ e = ((repo, sha.take 8), durationSeconds (timeSub (now i) T))) ∧
    takeRunes 8 sha = sha.take 8 ∧
    (minDuration ≤ now i - T → now i - T ≤ maxDuration →
      (durationSeconds (timeSub (now i) T)).sec * 1000000000 +
        (durationSeconds (timeSub (now i) T)).nsec = now i - T) ∧
    (maxDuration < now i - T → timeSub (now i) T = maxDuration) ∧
    (now i - T < minDuration → timeSub (now i) T = minDuration) := by
  have hsha : ValidString (sha.take 8) = true := ValidString_ascii _ hascii
  have hw : writable repo sha = true := (writable_iff repo sha).mpr ⟨hlen, hrepo, hsha⟩
  have hp := processRepo_ok (goEnv http parseTime now nowLog) i repo o n s T sha hsplit
    hfetch hw
  have hst : (processRepo (goEnv http parseTime now nowLog) i repo s).state.store =
      GaugeVec.setValue s.store (repo, sha.take 8) (durationSeconds (timeSub (now i) T)) := by
    rw [hp]; rfl
  refine ⟨by rw [hp]; rfl, hst, ?_, ?_, takeRunes_ascii 8 sha hascii, ?_, ?_, ?_⟩
  · rw [hst]
    exact GaugeVec.mem_setValue_self s.store _ _
  · intro e he
    rw [hst] at he
    exact GaugeVec.mem_setValue_cases s.store _ _ e he
  · intro hlo hhi
    rw [timeSub_of_fits (now i) T hlo hhi]
    exact durationSeconds_sum _
  · intro h
    simp [timeSub, h]
  · intro h
    have h2 : ¬ maxDuration < now i - T := by
      have : minDuration < maxDuration := by decide
      omega
    simp [timeSub, h, h2]

/-- C3 amended, at the hash `abcdef1234567890` for `a/b`, committed at
`2024-01-01T00:00:00Z` and written 5 seconds later: the commit_sha label is `abcdef12`
and the value is 5 seconds and 0 nanoseconds. -/
theorem C3_successful_fetch_writes_sample_witness :
    (ascii "abcdef1234567890").take 8 = ascii "abcdef12" ∧
    durationSeconds (timeSub (t2024 + 5000000000) t2024) = { sec := 5, nsec := 0 } ∧
    (processRepo (goDemoEnv (ascii "abcdef1234567890") (ascii "2024-01-01T00:00:00Z")) 0
      (ascii "a/b") State.empty).state.store =
        GaugeVec.setValue [] (ascii "a/b", (ascii "abcdef1234567890").take 8)
          (durationSeconds (timeSub (t2024 + 5000000000) t2024)) :=
  ⟨by decide, by decide,
   (C3_successful_fetch_writes_sample
      (fun _ _ _ => okResponse (ascii "abcdef1234567890") (ascii "2024-01-01T00:00:00Z"))
      (fun d => if d = ascii "2024-01-01T00:00:00Z" then some t2024
        else if d = ascii "0001-01-01T00:00:00Z" then some tYear1 else none)
      (fun _ => t2024 + 5000000000) (fun _ => t2024 + 5000000000)
      0 (ascii "a/b") (ascii "a") (ascii "b") State.empty t2024 (ascii "abcdef1234567890")
      (by decide) (by decide) (by decide) (by decide) (by decide)).2.1⟩

/-- C4, as the claim states it, fails for two separators: the identifier `a/b/c` is split at
the first separator into owner `a` and name `b/c`, the fetch is issued and the sample is
written. -/
theorem C4_two_separators_not_skipped :
    (ascii "a/b/c").count slash = 2 ∧
    SplitN (ascii "a/b/c") slash 2 = [ascii "a", ascii "b/c"] ∧
    processRepo demoEnv 0 (ascii "a/b/c") State.empty = Outcome.done
      { store := [((ascii "a/b/c", ascii "abcdef12"), 5)]
        trace := [Event.fetch (ascii "a") (ascii "b/c"),
          Event.set (ascii "a/b/c", ascii "abcdef12") 5,
          Event.debug (ascii "a/b/c") 5 (ascii "abcdef12")] } := by
  decide

/-- C4, amended: for an identifier that contains no separator at all, the loop body skips
the target; the only effect is the log line "Invalid repository", so no fetch is issued
and the store is not written. -/
theorem C4_no_separator_skipped {Time Val : Type} (env : Env Time Val) (i : Nat)
    (repo : GoString) (s : State Val) (hno : slash ∉ repo) :
    SplitN repo slash 2 = [repo] ∧
    processRepo env i repo s = Outcome.done
      { store := s.store, trace := s.trace ++ [Event.invalidRepository repo] } := by
  have hs := SplitN_two_of_not_mem repo hno
  refine ⟨hs, ?_⟩
  have hp := processRepo_invalid env i repo s (fun o n h => by rw [hs] at h; simp at h)
  rw [hp]
  rfl

/-- C4 amended, at the identifier `onlyname`: it is skipped, and one cycle over it from the
empty store produces no sample and completes. -/
theorem C4_no_separator_skipped_witness :
    (SplitN (ascii "onlyname") slash 2 = [ascii "onlyname"] ∧
      processRepo demoEnv 0 (ascii "onlyname") State.empty = Outcome.done
        { store := [], trace := [Event.invalidRepository (ascii "onlyname")] }) ∧
    collectionCycle demoEnv [ascii "onlyname"] State.empty = Outcome.done
      { store := [], trace := [Event.invalidRepository (ascii "onlyname")] } :=
  ⟨C4_no_separator_skipped demoEnv 0 (ascii "onlyname") State.empty (by decide), by decide⟩

/-- C5: for an identifier `owner + "/" + name` with `owner` and `name` non-empty and free of
the separator, the split step yields exactly the two non-empty parts `owner` and `name`, in
that order, and the target is not skipped: the loop body goes on to the fetch for
`(owner, name)` and logs no "Invalid repository". -/
theorem C5_valid_identifier_splits {Time Val : Type} (env : Env Time Val) (i : Nat)
    (owner name : GoString) (s : State Val)
    (howner : owner ≠ []) (hname : name ≠ [])
    (hso : slash ∉ owner) (_hsn : slash ∉ name) :
    SplitN (owner ++ slash :: name) slash 2 = [owner, name] ∧
    [owner, name].length = 2 ∧ owner ≠ [] ∧ name ≠ [] ∧
    (∃ evs, (processRepo env i (owner ++ slash :: name) s).state.trace =
        s.trace ++ Event.fetch owner name :: evs) ∧
    processRepo env i (owner ++ slash :: name) s ≠
      Outcome.done (s.log (Event.invalidRepository (owner ++ slash :: name))) := by
  have hs := SplitN_two_append owner name hso
  have htr : ∃ evs, (processRepo env i (owner ++ slash :: name) s).state.trace =
      s.trace ++ Event.fetch owner name :: evs := by
    rcases processRepo_cases env i (owner ++ slash :: name) s with ⟨hno, _⟩ | ⟨o, n, hs', h⟩
    · exact absurd hs (hno owner name)
    · rw [hs] at hs'
      simp only [List.cons.injEq, and_true] at hs'
      obtain ⟨rfl, rfl⟩ := hs'
      rcases h with ⟨_, hp⟩ | ⟨e, _, hp⟩ | ⟨t, sha, _, _, hp⟩ | ⟨t, sha, _, _, hp⟩
      · exact ⟨[], by rw [hp]; rfl⟩
      · exact ⟨[Event.fetchFailed (owner ++ slash :: name) e], by
          rw [hp]; simp [Outcome.state, State.log]⟩
      · exact ⟨[], by rw [hp]; rfl⟩
      · exact ⟨_, by rw [hp]; rfl⟩
  refine ⟨hs, rfl, howner, hname, htr, ?_⟩
  intro hp
  obtain ⟨evs, h1⟩ := htr
  rw [hp] at h1
  simp [Outcome.state, State.log] at h1

/-- C5 at owner `a` and name `b`: the identifier `a/b` splits into `a` and `b`, and the
fetch for `(a, b)` is the first effect of the loop body. -/
theorem C5_valid_identifier_splits_witness :
    ascii "a" ++ slash :: ascii "b" = ascii "a/b" ∧
    SplitN (ascii "a" ++ slash :: ascii "b") slash 2 = [ascii "a", ascii "b"] ∧
    ∃ evs, (processRepo demoEnv 0 (ascii "a" ++ slash :: ascii "b") State.empty).state.trace =
      State.empty.trace ++ Event.fetch (ascii "a") (ascii "b") :: evs :=
  ⟨by decide,
   (C5_valid_identifier_splits demoEnv 0 (ascii "a") (ascii "b") State.empty
      (by decide) (by decide) (by decide) (by decide)).1,
   (C5_valid_identifier_splits demoEnv 0 (ascii "a") (ascii "b") State.empty
      (by decide) (by decide) (by decide) (by decide)).2.2.2.2.1⟩

/-- C6, as the claim states it, fails: the repository `a/b` whose newest commit hash differs
between two cycles has two samples afterwards, one per hash. -/
theorem C6_two_samples_for_one_repository :
    (updateCommitMetrics [ascii "a/b"]
      [constEnv (okResponse (ascii "1111111111") (ascii "2024-01-01T00:00:00Z")),
       constEnv (okResponse (ascii "2222222222") (ascii "2024-01-01T00:00:00Z"))]
      State.empty).state.store =
      [((ascii "a/b", ascii "11111111"), 5), ((ascii "a/b", ascii "22222222"), 5)] ∧
    ¬ (GaugeVec.repositories (updateCommitMetrics [ascii "a/b"]
      [constEnv (okResponse (ascii "1111111111") (ascii "2024-01-01T00:00:00Z")),
       constEnv (okResponse (ascii "2222222222") (ascii "2024-01-01T00:00:00Z"))]
      State.empty).state.store).Nodup := by
  decide

/-- C6, amended: at every state reached by running any number of collection cycles from the
empty store, under any fetch outcomes, the store holds at most one sample per label pair
(repository, commit_sha); it holds a sample for exactly the label pairs written so far, each
carrying the value of the latest write to its label pair; and the label pair of every
successful fetch whose write went through in some cycle of the run is held at the end, so
a repository whose hash prefix differs between two cycles holds one sample per prefix. -/
theorem C6_one_sample_per_label_pair {Time Val : Type} (repos : List GoString)
    (envs : List (Env Time Val)) :
    (GaugeVec.labels (updateCommitMetrics repos envs State.empty).state.store).Nodup ∧
    (∀ k, k ∈ GaugeVec.labels (updateCommitMetrics repos envs State.empty).state.store ↔
      ∃ v, Event.set k v ∈ (updateCommitMetrics repos envs State.empty).state.trace) ∧
    (∀ k, GaugeVec.value (updateCommitMetrics repos envs State.empty).state.store k =
      lastWrite k (updateCommitMetrics repos envs State.empty).state.trace) ∧
    (∀ envs₁ env envs₂ pre repo post o n s1 s2 t sha, envs = envs₁ ++ env :: envs₂ →
      repos = pre ++ repo :: post →
      updateCommitMetrics repos envs₁ State.empty = Outcome.done s1 →
      collectionCycle env pre s1 = Outcome.done s2 → SplitN repo slash 2 = [o, n] →
      fetchRecentCommitInfo env pre.length o n = FetchResult.ok t sha →
      8 ≤ sha.length → ValidString repo = true → ValidString (sha.take 8) = true →
      (repo, sha.take 8) ∈
        GaugeVec.labels (updateCommitMetrics repos envs State.empty).state.store) := by
  have hinv := updateCommitMetrics_invariant repos
    (fun s : State Val => (GaugeVec.labels s.store).Nodup ∧
      ∀ k, GaugeVec.value s.store k = lastWrite k s.trace)
    (fun (env : Env Time Val) i repo s hs =>
      ⟨processRepo_nodup env i repo s hs.1, processRepo_value env i repo s hs.2⟩)
    envs State.empty
    ⟨by simp [State.empty, GaugeVec.labels], fun k => by
      simp [State.empty, GaugeVec.value, lastWrite]⟩
  refine ⟨hinv.1, fun k => ?_, hinv.2, ?_⟩
  · rw [← GaugeVec.value_isSome_iff, hinv.2 k, lastWrite_isSome_iff]
  · intro envs₁ env envs₂ pre repo post o n s1 s2 t sha henvs hrepos hrun hpre hs hf h8 hr hv
    rw [henvs]
    exact updateCommitMetrics_holds_written repos envs₁ envs₂ env pre post repo o n
      State.empty s1 s2 t sha hrepos hrun hpre hs hf
      ((writable_iff repo sha).mpr ⟨h8, hr, hv⟩)

/-- C6 amended, at the repository `a/b` fetched in two cycles with the hashes `1111111111`
and `2222222222`: the label pair written in the first cycle and the one written in the
second are both held after the second. -/
theorem C6_one_sample_per_label_pair_witness :
    (ascii "a/b", ascii "11111111") ∈ GaugeVec.labels (updateCommitMetrics [ascii "a/b"]
      [constEnv (okResponse (ascii "1111111111") (ascii "2024-01-01T00:00:00Z")),
       constEnv (okResponse (ascii "2222222222") (ascii "2024-01-01T00:00:00Z"))]
      State.empty).state.store ∧
    (ascii "a/b", ascii "22222222") ∈ GaugeVec.labels (updateCommitMetrics [ascii "a/b"]
      [constEnv (okResponse (ascii "1111111111") (ascii "2024-01-01T00:00:00Z")),
       constEnv (okResponse (ascii "2222222222") (ascii "2024-01-01T00:00:00Z"))]
      State.empty).state.store :=
  ⟨(C6_one_sample_per_label_pair [ascii "a/b"]
      [constEnv (okResponse (ascii "1111111111") (ascii "2024-01-01T00:00:00Z")),
       constEnv (okResponse (ascii "2222222222") (ascii "2024-01-01T00:00:00Z"))]).2.2.2
      [] (constEnv (okResponse (ascii "1111111111") (ascii "2024-01-01T00:00:00Z")))
      [constEnv (okResponse (ascii "2222222222") (ascii "2024-01-01T00:00:00Z"))]
      [] (ascii "a/b") [] (ascii "a") (ascii "b") State.empty State.empty 1704067200
      (ascii "1111111111") rfl rfl rfl rfl (by decide) (by decide) (by decide) (by decide)
      (by decide),
   (C6_one_sample_per_label_pair [ascii "a/b"]
      [constEnv (okResponse (ascii "1111111111") (ascii "2024-01-01T00:00:00Z")),
       constEnv (okResponse (ascii "2222222222") (ascii "2024-01-01T00:00:00Z"))]).2.2.2
      [constEnv (okResponse (ascii "1111111111") (ascii "2024-01-01T00:00:00Z"))]
      (constEnv (okResponse (ascii "2222222222") (ascii "2024-01-01T00:00:00Z")))
      [] [] (ascii "a/b") [] (ascii "a") (ascii "b")
      { store := [((ascii "a/b", ascii "11111111"), 5)]
        trace := [Event.fetch (ascii "a") (ascii "b"),
          Event.set (ascii "a/b", ascii "11111111") 5,
          Event.debug (ascii "a/b") 5 (ascii "11111111")] }
      { store := [((ascii "a/b", ascii "11111111"), 5)]
        trace := [Event.fetch (ascii "a") (ascii "b"),
          Event.set (ascii "a/b", ascii "11111111") 5,
          Event.debug (ascii "a/b") 5 (ascii "11111111")] }
      1704067200 (ascii "2222222222") rfl rfl (by decide) rfl (by decide) (by decide)
      (by decide) (by decide) (by decide)⟩

/-- C7, the code at the failing input: a `200` response whose list is `[{}]` makes
`fetchRecentCommitInfo` fail at run time instead of returning an error value, and so does a
first element without `sha` or with a `sha` or `commit` of another type; the failure takes
the calling cycle down with it. The sibling paths (undecodable body, empty list, unparsable
date, any other status) do return error values. -/
theorem C7_missing_field_aborts_fetch :
    fetchRecentCommitInfo emptyObjectEnv 0 (ascii "a") (ascii "b") = FetchResult.crash ∧
    fetchResponse (clockEnv fun _ _ _ => HttpOutcome.transportError).parseTime
      (HttpOutcome.response StatusOK (Body.decoded
        [[(ascii "commit", Json.object [(ascii "committer",
            Json.object [(ascii "date", Json.string (ascii "2024-01-01T00:00:00Z"))])])]])) =
      FetchResult.crash ∧
    fetchResponse (clockEnv fun _ _ _ => HttpOutcome.transportError).parseTime
      (HttpOutcome.response StatusOK (Body.decoded
        [[(ascii "sha", Json.number (ascii "7")),
          (ascii "commit", Json.object [(ascii "committer",
            Json.object [(ascii "date", Json.string (ascii "2024-01-01T00:00:00Z"))])])]])) =
      FetchResult.crash ∧
    fetchResponse (clockEnv fun _ _ _ => HttpOutcome.transportError).parseTime
      (HttpOutcome.response StatusOK (Body.decoded
        [[(ascii "sha", Json.string (ascii "abcdef1234567890")),
          (ascii "commit", Json.string (ascii "x"))]])) = FetchResult.crash ∧
    collectionCycle emptyObjectEnv [ascii "a/b", ascii "c/d"] State.empty =
      Outcome.aborted { store := [], trace := [Event.fetch (ascii "a") (ascii "b")] } ∧
    fetchResponse (clockEnv fun _ _ _ => HttpOutcome.transportError).parseTime
      (HttpOutcome.response StatusOK Body.undecodable) = FetchResult.error FetchError.decode ∧
    fetchResponse (clockEnv fun _ _ _ => HttpOutcome.transportError).parseTime
      (HttpOutcome.response StatusOK (Body.decoded [])) =
      FetchResult.error FetchError.noCommits ∧
    fetchResponse (clockEnv fun _ _ _ => HttpOutcome.transportError).parseTime
      (okResponse (ascii "abcdef1234567890") (ascii "yesterday")) =
      FetchResult.error FetchError.parseDate ∧
    fetchResponse (clockEnv fun _ _ _ => HttpOutcome.transportError).parseTime
      (HttpOutcome.response 404 Body.undecodable) = FetchResult.error FetchError.noCommits := by
  decide

/-- C8: for a `200` response whose body decodes to a non-empty list whose first element has
a string `sha` and a `commit.committer.date` string that parses as RFC3339,
`fetchRecentCommitInfo` returns exactly the parsed date and that `sha`, with no error; the
result is the same whatever the later elements of the list are. -/
theorem C8_fetch_returns_first_commit {Time Val : Type} (env : Env Time Val) (i : Nat)
    (owner name : GoString) (first : JMap) (later : List JMap) (commit committer : JMap)
    (date sha : GoString) (T : Time)
    (hhttp : env.http i owner name =
      HttpOutcome.response StatusOK (Body.decoded (first :: later)))
    (hcommit : first.index (ascii "commit") = Json.object commit)
    (hcommitter : commit.index (ascii "committer") = Json.object committer)
    (hdate : committer.index (ascii "date") = Json.string date)
    (hparse : env.parseTime date = some T)
    (hsha : first.index (ascii "sha") = Json.string sha) :
    fetchRecentCommitInfo env i owner name = FetchResult.ok T sha ∧
    ∀ later', fetchResponse env.parseTime
      (HttpOutcome.response StatusOK (Body.decoded (first :: later'))) =
        FetchResult.ok T sha := by
  have h : ∀ later', fetchResponse env.parseTime
      (HttpOutcome.response StatusOK (Body.decoded (first :: later'))) =
        FetchResult.ok T sha := by
    intro later'
    simp [fetchResponse, parseFirstCommit, hcommit, hcommitter, hdate, hparse, hsha,
      Json.assertMap, Json.assertString]
  refine ⟨?_, h⟩
  unfold fetchRecentCommitInfo
  rw [hhttp]
  exact h later

/-- C8 at the response `[{"sha": "abcdef1234567890", "commit": {"committer": {"date":
"2024-01-01T00:00:00Z"}}}]`: the fetch returns the parsed date and the hash, and a second
list element changes nothing. -/
theorem C8_fetch_returns_first_commit_witness :
    fetchRecentCommitInfo demoEnv 0 (ascii "a") (ascii "b") =
      FetchResult.ok 1704067200 (ascii "abcdef1234567890") ∧
    ∀ later', fetchResponse demoEnv.parseTime (HttpOutcome.response StatusOK (Body.decoded
      (commitObject (ascii "abcdef1234567890") (ascii "2024-01-01T00:00:00Z") :: later'))) =
        FetchResult.ok 1704067200 (ascii "abcdef1234567890") :=
  C8_fetch_returns_first_commit demoEnv 0 (ascii "a") (ascii "b")
    (commitObject (ascii "abcdef1234567890") (ascii "2024-01-01T00:00:00Z")) []
    [(ascii "committer", Json.object [(ascii "date", Json.string (ascii "2024-01-01T00:00:00Z"))])]
    [(ascii "date", Json.string (ascii "2024-01-01T00:00:00Z"))]
    (ascii "2024-01-01T00:00:00Z") (ascii "abcdef1234567890") 1704067200
    rfl rfl rfl rfl rfl rfl

/-- C10, as the claim states it, fails two ways. With the response `[{}]` no fetch succeeds,
so every successful fetch returns at least 8 bytes of hash, and yet the cycle does not
complete: the fetch itself fails at run time. And with the 9-byte hash `1234567é` every
fetch succeeds with at least 8 bytes, and yet the cycle is aborted at `a/b`: the slice
`[:8]` cuts the last character in two and `With` rejects the label. -/
theorem C10_long_hashes_yet_aborted :
    (∀ i repo o n t sha, [ascii "a/b"][i]? = some repo → SplitN repo slash 2 = [o, n] →
      fetchRecentCommitInfo emptyObjectEnv i o n = FetchResult.ok t sha → 8 ≤ sha.length) ∧
    collectionCycle emptyObjectEnv [ascii "a/b"] State.empty =
      Outcome.aborted { store := [], trace := [Event.fetch (ascii "a") (ascii "b")] } ∧
    (∀ i o n, fetchRecentCommitInfo
      (constEnv (okResponse shaCutRune (ascii "2024-01-01T00:00:00Z"))) i o n =
        FetchResult.ok 1704067200 shaCutRune) ∧
    8 ≤ shaCutRune.length ∧
    collectionCycle (constEnv (okResponse shaCutRune (ascii "2024-01-01T00:00:00Z")))
      [ascii "a/b", ascii "c/d"] State.empty =
      Outcome.aborted { store := [], trace := [Event.fetch (ascii "a") (ascii "b")] } := by
  refine ⟨?_, by decide, fun _ _ _ => rfl, by decide, by decide⟩
  intro i repo o n t sha _ _ h
  have hc : fetchRecentCommitInfo emptyObjectEnv i o n = FetchResult.crash := rfl
  rw [hc] at h
  cases h

/-- C10, amended: in a cycle none of whose fetches itself fails at run time, the cycle
completes if and only if every successful fetch made in it for an identifier that passed
the split step returns a hash of at least 8 bytes whose first 8 bytes, like the identifier,
are valid UTF-8 (a fetch is made for a target when the cycle over the targets before it
completes); and whatever the other fetches do, a successful fetch with a shorter hash, or
with a label value that is not valid UTF-8, aborts the cycle at that target, after the
fetch and before any write: the state is the one the earlier targets left and no later
target is processed. -/
theorem C10_completes_iff_hashes_long {Time Val : Type} (env : Env Time Val)
    (repos : List GoString) (s : State Val)
    (hnocrash : ∀ pre repo post s1 o n, repos = pre ++ repo :: post →
      collectionCycle env pre s = Outcome.done s1 → SplitN repo slash 2 = [o, n] →
      fetchRecentCommitInfo env pre.length o n ≠ FetchResult.crash) :
    ((collectionCycle env repos s).completed = true ↔
      ∀ pre repo post s1 o n t sha, repos = pre ++ repo :: post →
        collectionCycle env pre s = Outcome.done s1 → SplitN repo slash 2 = [o, n] →
        fetchRecentCommitInfo env pre.length o n = FetchResult.ok t sha →
        8 ≤ sha.length ∧ ValidString repo = true ∧ ValidString (sha.take 8) = true) ∧
    (∀ pre repo post o n t sha s1, repos = pre ++ repo :: post →
      collectionCycle env pre s = Outcome.done s1 → SplitN repo slash 2 = [o, n] →
      fetchRecentCommitInfo env pre.length o n = FetchResult.ok t sha →
      (sha.length < 8 ∨ ValidString repo = false ∨ ValidString (sha.take 8) = false) →
      collectionCycle env repos s = Outcome.aborted (s1.log (Event.fetch o n))) := by
  constructor
  · constructor
    · intro h pre repo post s1 o n t sha h1 _ h3 h4
      have hall := (cycleFrom_completed_iff env repos 0 s).mp h pre.length repo o n
        (by rw [h1, List.getElem?_append_right (Nat.le_refl _)]; simp) h3
      rw [Nat.zero_add] at hall
      exact (writable_iff repo sha).mp (hall.2 t sha h4)
    · intro h
      by_contra hnot
      have hfalse : (cycleFrom env 0 repos s).completed = false := by
        simpa [collectionCycle] using hnot
      obtain ⟨pre, repo, post, s1, o, n, h1, h2, h3, h4⟩ :=
        cycleFrom_first_failure env repos 0 s hfalse
      rw [Nat.zero_add] at h4
      rcases h4 with h4 | ⟨t, sha, h4, h5⟩
      · exact hnocrash pre repo post s1 o n h1 h2 h3 h4
      · have h6 := (writable_iff repo sha).mpr (h pre repo post s1 o n t sha h1 h2 h3 h4)
        rw [h5] at h6
        cases h6
  · intro pre repo post o n t sha s1 hrepos hpre hs hf hbad
    have hw : writable repo sha = false := by
      cases hw : writable repo sha with
      | false => rfl
      | true =>
        obtain ⟨h1, h2, h3⟩ := (writable_iff repo sha).mp hw
        rcases hbad with h | h | h
        · omega
        · rw [h2] at h; cases h
        · rw [h3] at h; cases h
    subst hrepos
    unfold collectionCycle at hpre ⊢
    rw [cycleFrom_append env pre (repo :: post) 0 s, hpre]
    simp only [Nat.zero_add, cycleFrom]
    rw [processRepo_unwritable env pre.length repo o n s1 t sha hs hf hw]

/-- C10 amended, at a fetch that succeeds with the empty hash: the cycle over `a/b` and
`c/d` is aborted at `a/b`, after its fetch, with nothing written and `c/d` not processed. -/
theorem C10_completes_iff_hashes_long_witness :
    collectionCycle (constEnv (okResponse [] (ascii "2024-01-01T00:00:00Z")))
      [ascii "a/b", ascii "c/d"] State.empty =
      Outcome.aborted (State.empty.log (Event.fetch (ascii "a") (ascii "b"))) := by
  refine (C10_completes_iff_hashes_long
    (constEnv (okResponse [] (ascii "2024-01-01T00:00:00Z")))
    [ascii "a/b", ascii "c/d"] State.empty ?_).2 [] (ascii "a/b") [ascii "c/d"] (ascii "a")
      (ascii "b") 1704067200 [] State.empty rfl rfl (by decide) (by decide)
      (Or.inl (by decide))
  intro pre _ _ _ o n _ _ _
  have hc : fetchRecentCommitInfo (constEnv (okResponse [] (ascii "2024-01-01T00:00:00Z")))
      pre.length o n = FetchResult.ok 1704067200 [] := rfl
  rw [hc]
  exact fun h => by cases h

end Exciportur
